import Mathlib

/-
Verification of the libpjf allocation manager (src/mmatic.c) and growable
string buffer (src/xstr.c) against their natural-language specification.

Shallow embedding conventions:
- Bytes are modeled as Nat; 0 is the NUL terminator.
- Freshly allocated (uninitialized) memory is modeled by filling the region
  with a caller-chosen garbage byte g; theorems quantify over g where the
  property must hold for arbitrary memory contents.
- A C string argument is a List Nat (the readable bytes); a nullable string
  argument is an Option (List Nat).  C string semantics (stopping at the
  first NUL) are applied inside the operations, mirroring strlen / strcpy /
  strncpy / strcat / strncat.
- The xstr structure carries a ghost counter nallocs counting the backing
  storage allocations performed by xstr_reserve (the xmmalloc calls), so that
  reallocation behaviour (no-op versus growth) is observable.
-/

namespace Libpjf

/-! Basic C byte-string helpers -/

/-- Effective C-string content of a byte region: the bytes before the first NUL. -/
def cstrOf (l : List Nat) : List Nat := l.takeWhile (fun b => b != 0)

/-- Model of strlen. -/
def cstrlen (l : List Nat) : Nat := (cstrOf l).length

/-- Model of isgraph from ctype.h: printable and not a space. -/
def graphB (c : Nat) : Bool := decide (33 ≤ c) && decide (c ≤ 126)

/-- Bytes written by strncpy(dst, src, n): the source up to its first NUL,
then NUL padding up to n bytes.  Always exactly n bytes. -/
def strncpyBytes (src : List Nat) (n : Nat) : List Nat :=
  (cstrOf src).take n ++ List.replicate (n - cstrlen src) 0

/-! The xstr structure (declared in lib.h, implemented in src/xstr.c):
fields s (backing storage), len (current length), a (capacity, characters
excluding the terminator).  The mm field (owning manager) is not modeled;
allocation through it is represented by the ghost counter nallocs.
When s is present it holds the whole backing chunk: a + 1 bytes. -/

structure xstr where
  s : Option (List Nat)
  len : Nat
  a : Nat
  nallocs : Nat
deriving Repr, DecidableEq

/-- xstr_reserve (src/xstr.c lines 78-98).  Note the strict comparison
`if (xs->a > l) return;`: capacity equal to l still reallocates. -/
def xstr_reserve (g : Nat) (xs : xstr) (l : Nat) : xstr :=
  if xs.a > l then xs
  else
    -- new_str = xmmalloc(l + 1);  fresh bytes are uninitialized (garbage g)
    let new_str := List.replicate (l + 1) g
    match xs.s with
    | some old =>
        -- strcpy(new_str, xs->s); mmfreeptr(xs->s); xs->s = new_str;
        { xs with s := some (cstrOf old ++ 0 :: new_str.drop (cstrlen old + 1)),
                  a := l, nallocs := xs.nallocs + 1 }
    | none =>
        -- xs->s = new_str; xs->s[0] = 0; xs->len = 0;
        { xs with s := some (new_str.set 0 0), len := 0,
                  a := l, nallocs := xs.nallocs + 1 }

/-- xstr_set (src/xstr.c lines 143-150): reserve for strlen(s), strcpy, set len. -/
def xstr_set (g : Nat) (xs : xstr) (src : List Nat) : xstr :=
  let l := cstrlen src
  let xs1 := xstr_reserve g xs l
  match xs1.s with
  | some st =>
      -- strcpy(xs->s, s); xs->len = l;
      { xs1 with s := some (cstrOf src ++ 0 :: st.drop (l + 1)), len := l }
  | none => xs1

/-- xstr_set_size (src/xstr.c lines 152-158): reserve(size), strncpy,
len = size, terminator at position size. -/
def xstr_set_size (g : Nat) (xs : xstr) (src : List Nat) (n : Nat) : xstr :=
  let xs1 := xstr_reserve g xs n
  match xs1.s with
  | some st =>
      -- strncpy(xs->s, s, size); xs->len = size; xs->s[size] = 0;
      { xs1 with s := some ((strncpyBytes src n ++ st.drop n).set n 0), len := n }
  | none => xs1

/-- xstr_append (src/xstr.c lines 100-115): returns unchanged for NULL or
empty input, otherwise reserve(len + strlen(s)) and strcat. -/
def xstr_append (g : Nat) (xs : xstr) (src : Option (List Nat)) : xstr :=
  match src with
  | none => xs
  | some sc =>
      let slen0 := cstrlen sc
      if slen0 = 0 then xs
      else
        let slen := slen0 + xs.len
        let xs1 := xstr_reserve g xs slen
        match xs1.s with
        | some st =>
            -- strcat(sx->s, s): writes the source and a NUL starting at the
            -- first NUL of the destination
            let k := cstrlen st
            { xs1 with s := some (st.take k ++ cstrOf sc ++ 0 :: st.drop (k + slen0 + 1)),
                       len := slen }
        | none => xs1

/-- xstr_append_size (src/xstr.c lines 117-128): returns unchanged for NULL
source or size 0; otherwise reserve(len + size) and strncat(s, size).
strncat appends at most size characters, stopping at the source NUL, and
always writes a terminating NUL after them. -/
def xstr_append_size (g : Nat) (xs : xstr) (src : Option (List Nat)) (n : Nat) : xstr :=
  match src with
  | none => xs
  | some sc =>
      if n = 0 then xs
      else
        let slen := xs.len + n
        let xs1 := xstr_reserve g xs slen
        match xs1.s with
        | some st =>
            let app := (cstrOf sc).take n
            let k := cstrlen st
            { xs1 with s := some (st.take k ++ app ++ 0 :: st.drop (k + app.length + 1)),
                       len := slen }
        | none => xs1

/-- xstr_append_char (src/xstr.c lines 130-141).  The guard in the source is
`if (sx->len + 2 >= sx->a);` with a stray semicolon: the conditional has an
empty body, so the reserve call below it runs unconditionally on every call.
The requested capacity is MAX(len + 2, 1.5 * len); the float product is
truncated when converted back to size_t. -/
def xstr_append_char (g : Nat) (xs : xstr) (c : Nat) : xstr :=
  if c = 0 then xs
  else
    let xs1 := xstr_reserve g xs (max (xs.len + 2) (3 * xs.len / 2))
    match xs1.s with
    | some st =>
        -- sx->s[sx->len++] = s; sx->s[sx->len] = 0;
        { xs1 with s := some ((st.set xs1.len c).set (xs1.len + 1) 0), len := xs1.len + 1 }
    | none => xs1

/-- xstr_free (src/xstr.c lines 160-168): release the backing chunk if
present and zero the fields; no-op when the backing pointer is already null. -/
def xstr_free (xs : xstr) : xstr :=
  match xs.s with
  | some _ => { xs with s := none, len := 0, a := 0 }
  | none => xs

/-- xstr_set_format (src/xstr.c lines 202-216).  The formatted output is
modeled as the abstract byte list r (what vsnprintf would produce): the
first pass returns r.length, reserve is called with it, the second pass
writes min(r.length, a) characters plus a NUL at the start of the buffer and
returns r.length again, so the defensive length-mismatch check never fires
in the model.  The length field is only updated when the result is positive. -/
def xstr_set_format (g : Nat) (xs : xstr) (r : List Nat) : xstr :=
  let len := r.length
  let xs1 := xstr_reserve g xs len
  match xs1.s with
  | some st =>
      let w := r.take xs1.a
      let st1 := w ++ 0 :: st.drop (w.length + 1)
      if 0 < len then { xs1 with s := some st1, len := len }
      else { xs1 with s := some st1 }
  | none => xs1

/-- xstr_append_format (src/xstr.c lines 218-234): like xstr_set_format but
the second pass writes at offset len with space a - len + 1. -/
def xstr_append_format (g : Nat) (xs : xstr) (r : List Nat) : xstr :=
  let len := r.length
  let xs1 := xstr_reserve g xs (xs.len + len)
  match xs1.s with
  | some st =>
      let w := r.take (xs1.a - xs1.len)
      let st1 := st.take xs1.len ++ w ++ 0 :: st.drop (xs1.len + w.length + 1)
      if 0 < len then { xs1 with s := some st1, len := xs1.len + len }
      else { xs1 with s := some st1 }
  | none => xs1

/-- xstr_init_val (src/xstr.c lines 51-58): zero the fields and xstr_set. -/
def xstr_init_val (g : Nat) (src : List Nat) : xstr :=
  xstr_set g { s := none, len := 0, a := 0, nallocs := 0 } src

/-- xstr_create (src/xstr.c lines 39-44); a NULL initial value is replaced
by the empty string before reaching this point. -/
def xstr_create (g : Nat) (src : List Nat) : xstr := xstr_init_val g src

/-! xstr_strip (src/xstr.c lines 170-184), translated loop by loop. -/

/-- First loop of xstr_strip: `for (i = 0; i < len; ++i) if (isgraph(s[i])) break;`.
The list argument is the storage suffix starting at index i; the Nat budget
is len - i. -/
def stripFwd : List Nat → Nat → Nat → Nat
  | _, 0, i => i
  | [], _ + 1, i => i
  | b :: rest, rem + 1, i => if graphB b then i else stripFwd rest rem (i + 1)

/-- Second loop of xstr_strip: `for (j = len; j >= i; --j) if (isgraph(s[j])) break;`.
Returns the stopping index, or none when j drops below i (the C loop leaves
j = i - 1, which can be -1). -/
def stripBwd (st : List Nat) (i : Nat) : Nat → Option Nat
  | 0 => if 0 < i then none else if graphB (st.getD 0 0) then some 0 else none
  | j + 1 =>
      if j + 1 < i then none
      else if graphB (st.getD (j + 1) 0) then some (j + 1)
      else stripBwd st i j

/-- xstr_strip: scans for the first and last graphical character, then
copies bytes i..j into a fresh allocation followed by a NUL.  The function
only reads the source buffer; the return value is the allocated bytes. -/
def xstr_strip (xs : xstr) : List Nat :=
  match xs.s with
  | none => []
  | some st =>
      let i := stripFwd st xs.len 0
      match stripBwd st i xs.len with
      | some j => (st.drop i).take (j + 1 - i) ++ [0]
      | none => [0]

/-- Specification-level trim used to compare xstr_strip against the spec
sentence: the content with all leading and trailing non-graphical bytes
removed. -/
def graphTrim (c : List Nat) : List Nat :=
  (c.dropWhile (fun b => !graphB b)).rdropWhile (fun b => !graphB b)

/-! Buffer invariant and step relation -/

/-- Content of a buffer: the first len bytes of the storage. -/
def contentOf (xs : xstr) : List Nat :=
  match xs.s with
  | none => []
  | some st => st.take xs.len

/-- The buffer invariant: capacity at least length; when storage is present
it is the whole a + 1 byte chunk holding exactly len non-NUL characters
followed by a NUL terminator; a freed or uninitialized buffer has zero
length and capacity. -/
def xstr_ok (xs : xstr) : Bool :=
  match xs.s with
  | none => xs.len == 0 && xs.a == 0
  | some st =>
      decide (xs.len ≤ xs.a) && st.length == xs.a + 1 &&
      (st.take xs.len).all (fun b => b != 0) && st.getD xs.len 0 == 0

/-- One operation of the string buffer API. -/
inductive XOp where
  | reserve (l : Nat)
  | set (src : List Nat)
  | setSize (src : List Nat) (n : Nat)
  | append (src : Option (List Nat))
  | appendSize (src : Option (List Nat)) (n : Nat)
  | appendChar (c : Nat)
  | setFormat (r : List Nat)
  | appendFormat (r : List Nat)
  | free
deriving Repr, DecidableEq

/-- Apply one buffer operation. -/
def xstep (g : Nat) (op : XOp) (xs : xstr) : xstr :=
  match op with
  | .reserve l => xstr_reserve g xs l
  | .set src => xstr_set g xs src
  | .setSize src n => xstr_set_size g xs src n
  | .append src => xstr_append g xs src
  | .appendSize src n => xstr_append_size g xs src n
  | .appendChar c => xstr_append_char g xs c
  | .setFormat r => xstr_set_format g xs r
  | .appendFormat r => xstr_append_format g xs r
  | .free => xstr_free xs

/-- Argument conditions under which the operations keep the invariant:
sized copies must not run past the NUL of their source, and a formatted
set must produce non-empty output (vsnprintf cannot emit NUL bytes, so
format results are NUL-free by construction). -/
def argsOk : XOp → Bool
  | .setSize src n => decide (n ≤ cstrlen src)
  | .appendSize src n =>
      match src with
      | none => true
      | some sc => decide (n ≤ cstrlen sc)
  | .setFormat r => r.all (fun b => b != 0) && decide (r ≠ [])
  | .appendFormat r => r.all (fun b => b != 0)
  | _ => true

/-- n single-character appends starting from a buffer created empty. -/
def apcRepeat (g c : Nat) : Nat → xstr
  | 0 => xstr_create g []
  | n + 1 => xstr_append_char g (apcRepeat g c n) c

/-! The mmatic allocation manager (src/mmatic.c).

The address space is modeled as an association list from chunk addresses to
chunk headers (plus payload bytes); the manager state carries the sentinel
address (first), the tail pointer (last), the running total, a fresh-address
counter, and an oob flag recording any out-of-bounds memcpy performed by
mmatic_realloc_.  A single manager is modeled; owner resolution through a
payload pointer back-reference always yields this manager and is not
represented.  Source-location metadata (cfile, cline) is diagnostics only
and omitted. -/

/-- Chunk header plus payload.  The tag field models TAG_CHUNK: true for
chunks created by mmatic_allocate, false for the sentinel. -/
structure mmchunk where
  tag : Bool
  shared : Bool
  alloc : Nat
  prev : Nat
  next : Option Nat
  data : List Nat
deriving Repr, DecidableEq

abbrev Heap := List (Nat × mmchunk)

/-- Heap lookup (first entry with the given address). -/
def hget : Heap → Nat → Option mmchunk
  | [], _ => none
  | (b, c) :: t, a => if b = a then some c else hget t a

/-- Update every entry at address b through f (at most one exists under the
invariant). -/
def hmap (f : mmchunk → mmchunk) (b : Nat) (h : Heap) : Heap :=
  h.map (fun p => if p.1 = b then (p.1, f p.2) else p)

/-- Remove the first entry at address a. -/
def hremove : Heap → Nat → Heap
  | [], _ => []
  | (b, c) :: t, a => if b = a then t else (b, c) :: hremove t a

/-- The manager structure: mgr->first (sentinel address), mgr->last,
mgr->totalloc, plus the modeled address space and fresh-address source. -/
structure mmatic where
  heap : Heap
  first : Nat
  last : Nat
  totalloc : Nat
  fresh : Nat
  oob : Bool
deriving Repr, DecidableEq

/-- The zeroed sentinel chunk made by mmatic_create (bzero, then mgr back
reference; tag stays 0, so it never validates as a chunk). -/
def sentinelChunk : mmchunk :=
  { tag := false, shared := false, alloc := 0, prev := 0, next := none, data := [] }

/-- mmatic_create (src/mmatic.c lines 54-68). -/
def mmatic_create : mmatic :=
  { heap := [(0, sentinelChunk)], first := 0, last := 0,
    totalloc := 0, fresh := 1, oob := false }

/-- mmatic_allocate (src/mmatic.c lines 70-112): make a chunk (heap block or
anonymous mapping according to shared), link it after mgr->last, bump the
running total, optionally zero the payload, return the payload pointer.
The map-start hint and flags do not affect the bookkeeping and are omitted. -/
def mmatic_allocate (size : Nat) (zero shared : Bool) (g : Nat) (s : mmatic) : Nat × mmatic :=
  let a := s.fresh
  let chunk : mmchunk :=
    { tag := true, shared := shared, alloc := size, prev := s.last, next := none,
      data := List.replicate size (if zero then 0 else g) }
  (a, { s with
          heap := hmap (fun c => { c with next := some a }) s.last s.heap ++ [(a, chunk)],
          last := a,
          totalloc := s.totalloc + size,
          fresh := a + 1 })

/-- mmatic_freeptr_ (src/mmatic.c lines 170-191): validate the chunk tag,
unlink (fixing the neighbour links and, for the tail, mgr->last), subtract
the size from the running total, release the storage. -/
def mmatic_freeptr (a : Nat) (s : mmatic) : Option mmatic :=
  match hget s.heap a with
  | none => none
  | some c =>
      if c.tag then
        let h1 := hmap (fun x => { x with next := c.next }) c.prev s.heap
        match c.next with
        | some n =>
            some { s with heap := hremove (hmap (fun x => { x with prev := c.prev }) n h1) a,
                          totalloc := s.totalloc - c.alloc }
        | none =>
            some { s with heap := hremove h1 a, last := c.prev,
                          totalloc := s.totalloc - c.alloc }
      else none

/-- mmatic_realloc_ (src/mmatic.c lines 114-133): validate the chunk,
allocate a fresh chunk of the same backing kind (size 0 means keep the
current size), then memcpy(newmem, mem, chunk->alloc) - the copy length is
the OLD payload size, so when shrinking the copy runs past the end of the
new payload; the oob flag records that.  Finally free the old chunk and
return the new payload pointer. -/
def mmatic_realloc (mem : Nat) (size : Nat) (g : Nat) (s : mmatic) : Option (Nat × mmatic) :=
  match hget s.heap mem with
  | none => none
  | some c =>
      if c.tag then
        let size1 := if size = 0 then c.alloc else size
        let r := mmatic_allocate size1 false c.shared g s
        let s2 := { r.2 with
          heap := hmap (fun x => { x with data := c.data ++ List.replicate (size1 - c.alloc) g })
                    r.1 r.2.heap,
          oob := r.2.oob || decide (size1 < c.alloc) }
        (mmatic_freeptr mem s2).map (fun s3 => (r.1, s3))
      else none

/-! Manager invariant -/

/-- Strictly increasing address list (addresses are issued in order, so the
live chunks carry strictly increasing addresses). -/
def incrB : List Nat → Bool
  | [] => true
  | [_] => true
  | x :: y :: t => decide (x < y) && incrB (y :: t)

/-- Every address below the fresh counter. -/
def allLtB (l : List Nat) (n : Nat) : Bool := l.all (fun x => decide (x < n))

/-- Sum of the payload sizes of the chunks at the given addresses. -/
def allocSum (h : Heap) (l : List Nat) : Nat :=
  (l.map (fun a => match hget h a with | some c => c.alloc | none => 0)).sum

/-- The doubly linked chunk list: starting under parent p with forward
pointer cur, the chain visits exactly the addresses of l, each entry tagged
as a chunk, with its prev pointing at the predecessor, ending with next =
NULL. -/
def chainOk (h : Heap) : Nat → Option Nat → List Nat → Bool
  | _, none, [] => true
  | _, some _, [] => false
  | _, none, _ :: _ => false
  | p, some a, b :: rest =>
      a == b &&
      (match hget h a with
       | some c => c.tag && (c.prev == p) && chainOk h a c.next rest
       | none => false)

/-- The manager invariant relative to the allocation-order list l of live
chunk addresses: the address space holds exactly the sentinel and l (in
order), addresses are strictly increasing and below the fresh counter, the
sentinel is untagged, the chunk list traversed from the sentinel is exactly
l with correct back links, mgr->last is the last chunk of that traversal
(the sentinel when l is empty), and the running total is the sum of the
live payload sizes. -/
def mmInv (s : mmatic) (l : List Nat) : Bool :=
  (s.heap.map Prod.fst == s.first :: l) &&
  incrB (s.first :: l) &&
  allLtB (s.first :: l) s.fresh &&
  (match hget s.heap s.first with
   | some c => !c.tag && chainOk s.heap s.first c.next l
   | none => false) &&
  (s.last == l.getLastD s.first) &&
  (s.totalloc == allocSum s.heap l)


/-! Helper lemmas about list surgery -/

theorem take_append_len (c r : List Nat) : (c ++ r).take c.length = c := by
  induction c with
  | nil => simp
  | cons x t ih => simp [ih]

theorem drop_append_len (c r : List Nat) : (c ++ r).drop c.length = r := by
  induction c with
  | nil => simp
  | cons x t ih => simp [ih]

theorem getD_append_len (c r : List Nat) (x : Nat) :
    (c ++ x :: r).getD c.length 0 = x := by
  induction c with
  | nil => simp [List.getD]
  | cons y t ih => simpa [List.getD] using ih

theorem getD_append_lt (c r : List Nat) (i : Nat) (h : i < c.length) :
    (c ++ r).getD i 0 = c.getD i 0 := by
  induction c generalizing i with
  | nil => simp at h
  | cons y t ih =>
      cases i with
      | zero => simp [List.getD]
      | succ i =>
          simp only [List.length_cons, Nat.succ_lt_succ_iff] at h
          simpa [List.getD] using ih i h

theorem set_append_len (c r : List Nat) (x v : Nat) :
    (c ++ x :: r).set c.length v = c ++ v :: r := by
  induction c with
  | nil => simp
  | cons y t ih => simp [ih]

theorem drop_replicate (n m : Nat) (g : Nat) :
    (List.replicate m g).drop n = List.replicate (m - n) g := by
  induction n generalizing m with
  | zero => simp
  | succ n ih =>
      cases m with
      | zero => simp
      | succ m => simpa using ih m

/-! Helper lemmas about C strings -/

theorem cstrOf_decomp (c r : List Nat) (hc : ∀ b ∈ c, b ≠ 0) :
    cstrOf (c ++ 0 :: r) = c := by
  induction c with
  | nil => simp [cstrOf]
  | cons x t ih =>
      have hx : (x != 0) = true := by simpa using hc x (by simp)
      have ht : ∀ b ∈ t, b ≠ 0 := fun b hb => hc b (by simp [hb])
      have hrest := ih ht
      unfold cstrOf at hrest ⊢
      simp [List.takeWhile_cons, hx, hrest]

theorem cstrlen_decomp (c r : List Nat) (hc : ∀ b ∈ c, b ≠ 0) :
    cstrlen (c ++ 0 :: r) = c.length := by
  simp [cstrlen, cstrOf_decomp c r hc]

theorem cstrOf_ne_zero (l : List Nat) : ∀ b ∈ cstrOf l, b ≠ 0 := by
  intro b hb
  have := List.mem_takeWhile_imp hb
  simpa using this

/-! Decomposition of a buffer satisfying the invariant -/

theorem okDecomp (xs : xstr) (st : List Nat) (h : xstr_ok xs = true) (hs : xs.s = some st) :
    ∃ c r, st = c ++ 0 :: r ∧ c.length = xs.len ∧ (∀ b ∈ c, b ≠ 0) ∧
      xs.len ≤ xs.a ∧ c.length + 1 + r.length = xs.a + 1 := by
  unfold xstr_ok at h
  rw [hs] at h
  simp only [Bool.and_eq_true, decide_eq_true_eq, beq_iff_eq, List.all_eq_true] at h
  obtain ⟨⟨⟨hle, hlen⟩, hall⟩, hterm⟩ := h
  refine ⟨st.take xs.len, st.drop (xs.len + 1), ?_, ?_, ?_, hle, ?_⟩
  · have hlt : xs.len < st.length := by omega
    have h2 : st.drop xs.len = st[xs.len] :: st.drop (xs.len + 1) :=
      List.drop_eq_getElem_cons hlt
    have h3 : st[xs.len] = 0 := by
      have := List.getD_eq_getElem st 0 hlt
      rw [← this, hterm]
    rw [h3] at h2
    calc st = st.take xs.len ++ st.drop xs.len := (List.take_append_drop _ _).symm
      _ = st.take xs.len ++ 0 :: st.drop (xs.len + 1) := by rw [h2]
  · simp
    omega
  · intro b hb
    simpa using hall b hb
  · have hlt : xs.len < st.length := by omega
    simp [List.length_take, List.length_drop]
    omega

theorem ok_build (c r : List Nat) (len a k : Nat) (hc : ∀ b ∈ c, b ≠ 0)
    (hl : len = c.length) (hlen : c.length + 1 + r.length = a + 1) :
    xstr_ok ⟨some (c ++ 0 :: r), len, a, k⟩ = true := by
  subst hl
  unfold xstr_ok
  simp only [Bool.and_eq_true, decide_eq_true_eq, beq_iff_eq, List.all_eq_true]
  refine ⟨⟨⟨by omega, by simp; omega⟩, ?_⟩, ?_⟩
  · rw [take_append_len]
    intro b hb
    simpa using hc b hb
  · rw [getD_append_len]

theorem contentOf_build (c r : List Nat) (len a k : Nat) (hl : len = c.length) :
    contentOf ⟨some (c ++ 0 :: r), len, a, k⟩ = c := by
  subst hl
  simp [contentOf, take_append_len]

theorem content_ne_zero (xs : xstr) (h : xstr_ok xs = true) :
    ∀ b ∈ contentOf xs, b ≠ 0 := by
  cases hs : xs.s with
  | none => simp [contentOf, hs]
  | some st =>
      obtain ⟨c, r, hst, hclen, hc, _, _⟩ := okDecomp xs st h hs
      intro b hb
      simp only [contentOf, hs] at hb
      rw [hst, ← hclen, take_append_len] at hb
      exact hc b hb

/-! Characterization of xstr_reserve on valid buffers -/

theorem reserve_noop (g : Nat) (xs : xstr) (l : Nat) (h : l < xs.a) :
    xstr_reserve g xs l = xs := by
  unfold xstr_reserve
  simp [h]

theorem reserve_spec (g l : Nat) (xs : xstr) (h : xstr_ok xs = true) (hal : xs.a ≤ l) :
    xstr_reserve g xs l =
      ⟨some (contentOf xs ++ 0 :: List.replicate (l - xs.len) g), xs.len, l, xs.nallocs + 1⟩ := by
  cases hs : xs.s with
  | none =>
      unfold xstr_ok at h
      rw [hs] at h
      simp only [Bool.and_eq_true, beq_iff_eq] at h
      obtain ⟨h0, ha⟩ := h
      unfold xstr_reserve
      rw [hs]
      have hngt : ¬ xs.a > l := by omega
      simp only [if_neg hngt]
      have : (List.replicate (l + 1) g).set 0 0 = 0 :: List.replicate l g := by
        simp [List.replicate_succ]
      simp [contentOf, hs, this, h0]
  | some st =>
      obtain ⟨c, r, hst, hclen, hc, hle, hlen⟩ := okDecomp xs st h hs
      unfold xstr_reserve
      rw [hs]
      have hngt : ¬ xs.a > l := by omega
      simp only [if_neg hngt]
      rw [hst, cstrOf_decomp c r hc, cstrlen_decomp c r hc]
      have hdrop : (List.replicate (l + 1) g).drop (c.length + 1) =
          List.replicate (l - xs.len) g := by
        rw [drop_replicate]
        congr 1
        omega
      rw [hdrop]
      have hcontent : contentOf xs = c := by
        simp only [contentOf, hs, hst, ← hclen, take_append_len]
      rw [hcontent]

theorem reserve_decomp (g l : Nat) (xs : xstr) (h : xstr_ok xs = true) :
    ∃ c r a2 k2, xstr_reserve g xs l = ⟨some (c ++ 0 :: r), c.length, a2, k2⟩ ∧
      c = contentOf xs ∧ (∀ b ∈ c, b ≠ 0) ∧ c.length = xs.len ∧
      l ≤ a2 ∧ c.length ≤ a2 ∧ c.length + 1 + r.length = a2 + 1 := by
  by_cases hlt : l < xs.a
  · rw [reserve_noop g xs l hlt]
    cases hs : xs.s with
    | none =>
        unfold xstr_ok at h
        rw [hs] at h
        simp only [Bool.and_eq_true, beq_iff_eq] at h
        omega
    | some st =>
        obtain ⟨c, r, hst, hclen, hc, hle, hlen⟩ := okDecomp xs st h hs
        refine ⟨c, r, xs.a, xs.nallocs, ?_, ?_, hc, hclen, by omega, by omega, hlen⟩
        · cases xs
          simp only at hs hclen ⊢
          rw [hs, hst, hclen]
        · simp only [contentOf, hs, hst, ← hclen, take_append_len]
  · have hal : xs.a ≤ l := by omega
    rw [reserve_spec g l xs h hal]
    have hcl : (contentOf xs).length = xs.len := by
      cases hs : xs.s with
      | none =>
          unfold xstr_ok at h
          rw [hs] at h
          simp only [Bool.and_eq_true, beq_iff_eq] at h
          simp [contentOf, hs, h.1]
      | some st =>
          obtain ⟨c, r, hst, hclen, hc, hle, hlen⟩ := okDecomp xs st h hs
          simp only [contentOf, hs, List.length_take, hst]
          simp
          omega
    have hlenle : xs.len ≤ l := by
      have : xs.len ≤ xs.a := by
        cases hs : xs.s with
        | none =>
            unfold xstr_ok at h
            rw [hs] at h
            simp only [Bool.and_eq_true, beq_iff_eq] at h
            omega
        | some st => exact (okDecomp xs st h hs).choose_spec.choose_spec.2.2.2.1
      omega
    refine ⟨contentOf xs, List.replicate (l - xs.len) g, l, xs.nallocs + 1, ?_, rfl,
      content_ne_zero xs h, hcl, le_refl l, by omega, by simp; omega⟩
    rw [hcl]

theorem drop_append_add (c r : List Nat) (x m : Nat) :
    (c ++ x :: r).drop (c.length + m + 1) = r.drop m := by
  induction c with
  | nil => simp
  | cons y t ih =>
      have : (y :: t).length + m + 1 = (t.length + m + 1) + 1 := by simp; omega
      rw [this]
      simpa using ih

/-! Behaviour of each buffer operation on a valid buffer -/

theorem set_spec (g : Nat) (xs : xstr) (src : List Nat) (h : xstr_ok xs = true) :
    xstr_ok (xstr_set g xs src) = true ∧
    contentOf (xstr_set g xs src) = cstrOf src ∧
    (xstr_set g xs src).len = cstrlen src ∧
    (xstr_set g xs src).s.isSome = true := by
  obtain ⟨c, r, a2, k2, heq, hcc, hc, hcxs, hla, hcla, hlen⟩ :=
    reserve_decomp g (cstrlen src) xs h
  simp only [xstr_set]
  rw [heq]
  dsimp only
  refine ⟨?_, ?_, rfl, rfl⟩
  · refine ok_build (cstrOf src) _ _ _ _ (cstrOf_ne_zero src) rfl ?_
    simp only [List.length_drop, List.length_append, List.length_cons]
    have hcs : cstrlen src = (cstrOf src).length := rfl
    omega
  · exact contentOf_build (cstrOf src) _ _ _ _ rfl

theorem take_all_len_le (l : List Nat) (n : Nat) (h : l.length ≤ n) : l.take n = l := by
  induction l generalizing n with
  | nil => simp
  | cons x t ih =>
      cases n with
      | zero => simp at h
      | succ n =>
          simp only [List.length_cons, Nat.succ_le_succ_iff] at h
          simp [ih n h]

theorem mem_take_mem (l : List Nat) (n b : Nat) (h : b ∈ l.take n) : b ∈ l := by
  induction l generalizing n with
  | nil => simp at h
  | cons x t ih =>
      cases n with
      | zero => simp at h
      | succ n =>
          simp only [List.take_succ_cons, List.mem_cons] at h
          rcases h with h | h
          · simp [h]
          · simp [ih n h]

theorem strncpyBytes_length (src : List Nat) (n : Nat) : (strncpyBytes src n).length = n := by
  simp only [strncpyBytes, List.length_append, List.length_take, List.length_replicate]
  have : cstrlen src = (cstrOf src).length := rfl
  omega

theorem setSize_spec (g : Nat) (xs : xstr) (src : List Nat) (n : Nat) (h : xstr_ok xs = true) :
    ∃ st, (xstr_set_size g xs src n).s = some st ∧
      st.take n = strncpyBytes src n ∧ st.getD n 0 = 0 ∧
      (xstr_set_size g xs src n).len = n ∧
      (n ≤ cstrlen src →
        xstr_ok (xstr_set_size g xs src n) = true ∧
        contentOf (xstr_set_size g xs src n) = (cstrOf src).take n) := by
  obtain ⟨c, r, a2, k2, heq, hcc, hc, hcxs, hla, hcla, hlen⟩ := reserve_decomp g n xs h
  simp only [xstr_set_size]
  rw [heq]
  dsimp only
  have hst : n < (c ++ 0 :: r).length := by simp; omega
  obtain ⟨y, t, hdropeq⟩ : ∃ y t, (c ++ 0 :: r).drop n = y :: t :=
    ⟨_, _, List.drop_eq_getElem_cons hst⟩
  have hw := strncpyBytes_length src n
  have hset : ∀ w : List Nat, w.length = n →
      (w ++ y :: t).set n 0 = w ++ 0 :: t := by
    intro w hwl
    rw [← hwl]
    exact set_append_len _ _ _ _
  have htake : ∀ w : List Nat, w.length = n →
      (w ++ 0 :: t).take n = w := by
    intro w hwl
    rw [← hwl]
    exact take_append_len _ _
  have hgetd : ∀ w : List Nat, w.length = n →
      (w ++ 0 :: t).getD n 0 = 0 := by
    intro w hwl
    rw [← hwl]
    exact getD_append_len _ _ _
  have hdlen : t.length = a2 - n := by
    have := congrArg List.length hdropeq
    simp [List.length_drop] at this
    omega
  rw [hdropeq, hset _ hw]
  refine ⟨_, rfl, htake _ hw, hgetd _ hw, rfl, ?_⟩
  intro hn
  have hweq : strncpyBytes src n = (cstrOf src).take n := by
    unfold strncpyBytes
    have : n - cstrlen src = 0 := by omega
    simp [this]
  have hwz : ∀ b ∈ strncpyBytes src n, b ≠ 0 := by
    intro b hb
    rw [hweq] at hb
    exact cstrOf_ne_zero src b (mem_take_mem _ _ _ hb)
  constructor
  · exact ok_build (strncpyBytes src n) _ _ _ _ hwz (by omega) (by omega)
  · rw [hweq] at hw ⊢
    exact contentOf_build _ _ _ _ _ (by omega)

theorem append_noop_none (g : Nat) (xs : xstr) : xstr_append g xs none = xs := rfl

theorem append_noop_empty (g : Nat) (xs : xstr) (sc : List Nat) (h : cstrlen sc = 0) :
    xstr_append g xs (some sc) = xs := by
  simp [xstr_append, h]

theorem appendSize_noop_none (g : Nat) (xs : xstr) (n : Nat) :
    xstr_append_size g xs none n = xs := rfl

theorem appendSize_noop_zero (g : Nat) (xs : xstr) (sc : List Nat) :
    xstr_append_size g xs (some sc) 0 = xs := by
  simp [xstr_append_size]

theorem append_spec (g : Nat) (xs : xstr) (sc : List Nat) (h : xstr_ok xs = true)
    (hne : cstrlen sc ≠ 0) :
    xstr_ok (xstr_append g xs (some sc)) = true ∧
    contentOf (xstr_append g xs (some sc)) = contentOf xs ++ cstrOf sc ∧
    (xstr_append g xs (some sc)).len = xs.len + cstrlen sc ∧
    (xstr_append g xs (some sc)).s.isSome = true := by
  obtain ⟨c, r, a2, k2, heq, hcc, hc, hcxs, hla, hcla, hlen⟩ :=
    reserve_decomp g (cstrlen sc + xs.len) xs h
  simp only [xstr_append]
  rw [if_neg hne, heq]
  dsimp only
  rw [cstrlen_decomp c r hc, take_append_len]
  have hdrop : (c ++ 0 :: r).drop (c.length + cstrlen sc + 1) = r.drop (cstrlen sc) :=
    drop_append_add c r 0 (cstrlen sc)
  rw [hdrop]
  have hassoc : c ++ cstrOf sc ++ 0 :: r.drop (cstrlen sc) =
      (c ++ cstrOf sc) ++ 0 :: r.drop (cstrlen sc) := by
    rw [List.append_assoc]
  rw [hassoc]
  have hcs : cstrlen sc = (cstrOf sc).length := rfl
  have hdl : (r.drop (cstrlen sc)).length = r.length - cstrlen sc := by
    simp [List.length_drop]
  have hz : ∀ b ∈ c ++ cstrOf sc, b ≠ 0 := by
    intro b hb
    rcases List.mem_append.mp hb with hb | hb
    · exact hc b hb
    · exact cstrOf_ne_zero sc b hb
  refine ⟨?_, ?_, by omega, rfl⟩
  · exact ok_build (c ++ cstrOf sc) _ _ _ _ hz
      (by simp only [List.length_append]; omega)
      (by simp only [List.length_append]; omega)
  · rw [contentOf_build _ _ _ _ _ (by simp only [List.length_append]; omega), hcc]

theorem appendSize_spec (g : Nat) (xs : xstr) (sc : List Nat) (n : Nat)
    (h : xstr_ok xs = true) (hn : n ≠ 0) (hcs : n ≤ cstrlen sc) :
    xstr_ok (xstr_append_size g xs (some sc) n) = true ∧
    contentOf (xstr_append_size g xs (some sc) n) = contentOf xs ++ (cstrOf sc).take n ∧
    (xstr_append_size g xs (some sc) n).len = xs.len + n ∧
    (xstr_append_size g xs (some sc) n).s.isSome = true := by
  obtain ⟨c, r, a2, k2, heq, hcc, hc, hcxs, hla, hcla, hlen⟩ :=
    reserve_decomp g (xs.len + n) xs h
  simp only [xstr_append_size]
  rw [if_neg hn, heq]
  dsimp only
  rw [cstrlen_decomp c r hc, take_append_len]
  have happ : ((cstrOf sc).take n).length = n := by
    have : cstrlen sc = (cstrOf sc).length := rfl
    simp [List.length_take]
    omega
  rw [happ]
  have hdrop : (c ++ 0 :: r).drop (c.length + n + 1) = r.drop n :=
    drop_append_add c r 0 n
  rw [hdrop]
  have hassoc : c ++ (cstrOf sc).take n ++ 0 :: r.drop n =
      (c ++ (cstrOf sc).take n) ++ 0 :: r.drop n := by
    rw [List.append_assoc]
  rw [hassoc]
  have hdl : (r.drop n).length = r.length - n := by simp [List.length_drop]
  have hz : ∀ b ∈ c ++ (cstrOf sc).take n, b ≠ 0 := by
    intro b hb
    rcases List.mem_append.mp hb with hb | hb
    · exact hc b hb
    · exact cstrOf_ne_zero sc b (mem_take_mem _ _ _ hb)
  refine ⟨?_, ?_, by omega, rfl⟩
  · exact ok_build (c ++ (cstrOf sc).take n) _ _ _ _ hz
      (by simp only [List.length_append]; omega)
      (by simp only [List.length_append]; omega)
  · rw [contentOf_build _ _ _ _ _ (by simp only [List.length_append]; omega), hcc]

theorem appendChar_spec (g : Nat) (xs : xstr) (c0 : Nat) (h : xstr_ok xs = true)
    (hc0 : c0 ≠ 0) :
    xstr_ok (xstr_append_char g xs c0) = true ∧
    contentOf (xstr_append_char g xs c0) = contentOf xs ++ [c0] ∧
    (xstr_append_char g xs c0).len = xs.len + 1 ∧
    (xstr_append_char g xs c0).s.isSome = true := by
  obtain ⟨c, r, a2, k2, heq, hcc, hc, hcxs, hla, hcla, hlen⟩ :=
    reserve_decomp g (max (xs.len + 2) (3 * xs.len / 2)) xs h
  have hla2 : xs.len + 2 ≤ a2 := le_trans (le_max_left _ _) hla
  simp only [xstr_append_char]
  rw [if_neg hc0, heq]
  dsimp only
  have hrne : r.length ≥ 2 := by omega
  obtain ⟨y, t, hrt⟩ : ∃ y t, r = y :: t := by
    cases r with
    | nil => simp at hrne
    | cons y t => exact ⟨y, t, rfl⟩
  subst hrt
  rw [set_append_len]
  have hrec : c ++ c0 :: y :: t = (c ++ [c0]) ++ y :: t := by simp
  rw [hrec]
  have hidx : c.length + 1 = (c ++ [c0]).length := by simp
  rw [hidx, set_append_len]
  have hz : ∀ b ∈ c ++ [c0], b ≠ 0 := by
    intro b hb
    rcases List.mem_append.mp hb with hb | hb
    · exact hc b hb
    · simp at hb; omega
  simp only [List.length_cons] at hlen
  refine ⟨?_, ?_, by omega, rfl⟩
  · exact ok_build (c ++ [c0]) _ _ _ _ hz (by simp)
      (by simp only [List.length_append, List.length_cons, List.length_nil]; omega)
  · rw [contentOf_build _ _ _ _ _ (by simp), hcc]

theorem setFormat_spec (g : Nat) (xs : xstr) (r0 : List Nat) (h : xstr_ok xs = true)
    (hz : ∀ b ∈ r0, b ≠ 0) (hne : r0 ≠ []) :
    xstr_ok (xstr_set_format g xs r0) = true ∧
    contentOf (xstr_set_format g xs r0) = r0 ∧
    (xstr_set_format g xs r0).len = r0.length ∧
    (xstr_set_format g xs r0).s.isSome = true := by
  obtain ⟨c, r, a2, k2, heq, hcc, hc, hcxs, hla, hcla, hlen⟩ :=
    reserve_decomp g r0.length xs h
  simp only [xstr_set_format]
  rw [heq]
  dsimp only
  have hw : r0.take a2 = r0 := take_all_len_le r0 a2 hla
  rw [hw]
  have hpos : 0 < r0.length := List.length_pos.mpr hne
  rw [if_pos hpos]
  have hdlen : ((c ++ 0 :: r).drop (r0.length + 1)).length = a2 - r0.length := by
    simp [List.length_drop]
    omega
  refine ⟨?_, ?_, rfl, rfl⟩
  · exact ok_build r0 _ _ _ _ hz rfl (by omega)
  · exact contentOf_build r0 _ _ _ _ rfl

theorem setFormat_nil_spec (g : Nat) (xs : xstr) (h : xstr_ok xs = true) (h0 : xs.len = 0) :
    xstr_ok (xstr_set_format g xs []) = true ∧
    contentOf (xstr_set_format g xs []) = [] ∧
    (xstr_set_format g xs []).len = 0 ∧
    (xstr_set_format g xs []).s.isSome = true := by
  obtain ⟨c, r, a2, k2, heq, hcc, hc, hcxs, hla, hcla, hlen⟩ :=
    reserve_decomp g (List.length []) xs h
  have hcnil : c = [] := List.length_eq_zero.mp (by omega)
  subst hcnil
  simp only [xstr_set_format]
  rw [heq]
  dsimp only
  simp only [List.take_nil, List.length_nil, List.nil_append, List.drop_succ_cons,
    List.drop_zero, lt_self_iff_false, if_false]
  refine ⟨?_, ?_, ?_, ?_⟩
  · have := ok_build ([] : List Nat) r 0 a2 k2 (by simp) rfl (by simpa using hlen)
    simpa using this
  · have := contentOf_build ([] : List Nat) r 0 a2 k2 rfl
    simpa using this
  · trivial
  · trivial

theorem appendFormat_spec (g : Nat) (xs : xstr) (r0 : List Nat) (h : xstr_ok xs = true)
    (hz : ∀ b ∈ r0, b ≠ 0) :
    xstr_ok (xstr_append_format g xs r0) = true ∧
    contentOf (xstr_append_format g xs r0) = contentOf xs ++ r0 ∧
    (xstr_append_format g xs r0).len = xs.len + r0.length ∧
    (xstr_append_format g xs r0).s.isSome = true := by
  obtain ⟨c, r, a2, k2, heq, hcc, hc, hcxs, hla, hcla, hlen⟩ :=
    reserve_decomp g (xs.len + r0.length) xs h
  simp only [xstr_append_format]
  rw [heq]
  dsimp only
  have hw : r0.take (a2 - c.length) = r0 := take_all_len_le r0 _ (by omega)
  rw [hw, take_append_len]
  have hdrop : (c ++ 0 :: r).drop (c.length + r0.length + 1) = r.drop r0.length :=
    drop_append_add c r 0 r0.length
  rw [hdrop]
  have hdl : (r.drop r0.length).length = r.length - r0.length := by
    simp [List.length_drop]
  have hzc : ∀ b ∈ c ++ r0, b ≠ 0 := by
    intro b hb
    rcases List.mem_append.mp hb with hb | hb
    · exact hc b hb
    · exact hz b hb
  by_cases hpos : 0 < r0.length
  · rw [if_pos hpos]
    refine ⟨?_, ?_, ?_, rfl⟩
    · exact ok_build (c ++ r0) _ _ _ _ hzc
        (by simp only [List.length_append])
        (by simp only [List.length_append]; omega)
    · rw [contentOf_build _ _ _ _ _ (by simp only [List.length_append]), hcc]
    · show c.length + r0.length = xs.len + r0.length
      omega
  · rw [if_neg hpos]
    have hr0 : r0 = [] := List.length_eq_zero.mp (by omega)
    subst hr0
    refine ⟨?_, ?_, ?_, rfl⟩
    · exact ok_build (c ++ []) _ _ _ _ hzc
        (by simp only [List.length_append, List.length_nil]; omega)
        (by simp only [List.length_append, List.length_nil, List.drop_zero]; omega)
    · rw [contentOf_build _ _ _ _ _
        (by simp only [List.length_append, List.length_nil]; omega), hcc]
    · show c.length = xs.len + List.length []
      simp only [List.length_nil]
      omega

theorem ok_empty (k : Nat) : xstr_ok ⟨none, 0, 0, k⟩ = true := rfl

theorem free_spec (xs : xstr) (h : xstr_ok xs = true) :
    xstr_free xs = ⟨none, 0, 0, xs.nallocs⟩ := by
  cases hs : xs.s with
  | some st =>
      cases xs
      simp only at hs
      simp [xstr_free, hs]
  | none =>
      unfold xstr_ok at h
      rw [hs] at h
      simp only [Bool.and_eq_true, beq_iff_eq] at h
      cases xs
      simp only at hs h
      simp [xstr_free, hs, h.1, h.2]

theorem reserve_ok_pres (g l : Nat) (xs : xstr) (h : xstr_ok xs = true) :
    xstr_ok (xstr_reserve g xs l) = true := by
  obtain ⟨c, r, a2, k2, heq, hcc, hc, hcxs, hla, hcla, hlen⟩ := reserve_decomp g l xs h
  rw [heq]
  exact ok_build c r _ _ _ hc rfl hlen

theorem content_length (xs : xstr) (h : xstr_ok xs = true) :
    (contentOf xs).length = xs.len := by
  cases hs : xs.s with
  | none =>
      unfold xstr_ok at h
      rw [hs] at h
      simp only [Bool.and_eq_true, beq_iff_eq] at h
      simp [contentOf, hs, h.1]
  | some st =>
      obtain ⟨c, r, hst, hclen, hc, hle, hlen⟩ := okDecomp xs st h hs
      simp only [contentOf, hs, List.length_take, hst]
      simp
      omega

theorem ok_len_le (xs : xstr) (h : xstr_ok xs = true) : xs.len ≤ xs.a := by
  cases hs : xs.s with
  | none =>
      unfold xstr_ok at h
      rw [hs] at h
      simp only [Bool.and_eq_true, beq_iff_eq] at h
      omega
  | some st => exact (okDecomp xs st h hs).choose_spec.choose_spec.2.2.2.1

/-! Claim theorems for the string buffer -/

set_option maxRecDepth 8000

/-- C2 counterexample evidence (code bug): the stray semicolon makes the
growth reservation unconditional.  A buffer with length 8 and capacity 11
has 3 free bytes (at least 2), yet appendChar performs a reservation and
changes the capacity to 12; and n single-character appends from an empty
buffer perform n backing reservations (linear, not logarithmic). -/
theorem claim_C2_append_char_reserves_always :
    (let xs := xstr_reserve 1 (xstr_create 1 [97, 98, 99, 100, 101, 102, 103, 104]) 11
     xs.len = 8 ∧ xs.a = 11 ∧
     (xstr_append_char 1 xs 120).nallocs = xs.nallocs + 1 ∧
     (xstr_append_char 1 xs 120).a = 12) ∧
    (apcRepeat 1 65 30).nallocs = 31 ∧ (apcRepeat 1 65 30).len = 30 := by decide

/-- C3 counterexample: appendSized(buffer, s, n) with n larger than the
source string length (strncat semantics) breaks the invariant: after
appending 3 bytes of the source 97,0,98 to the buffer holding one byte,
the length field is 4 but byte 4 of the storage is uninitialized garbage,
not a NUL terminator. -/
theorem claim_C3_counterexample :
    xstr_ok (xstr_append_size 1 (xstr_create 1 [120]) (some [97, 0, 98]) 3) = false := by
  decide

/-- C3 (amended): initialization establishes the invariant (capacity at
least length, storage holding exactly length non-NUL characters plus a NUL
terminator), and every operation preserves it provided sized appends and
sized sets do not copy past the NUL of their source and formatted sets
produce non-empty output. -/
theorem claim_C3_invariant_preserved :
    (∀ g src, xstr_ok (xstr_create g src) = true) ∧
    (∀ g op xs, xstr_ok xs = true → argsOk op = true → xstr_ok (xstep g op xs) = true) := by
  constructor
  · intro g src
    exact (set_spec g ⟨none, 0, 0, 0⟩ src (ok_empty 0)).1
  · intro g op xs h hargs
    cases op with
    | reserve l => exact reserve_ok_pres g l xs h
    | set src => exact (set_spec g xs src h).1
    | setSize src n =>
        have hn : n ≤ cstrlen src := by simpa [argsOk] using hargs
        obtain ⟨st, h1, h2, h3, h4, h5⟩ := setSize_spec g xs src n h
        exact (h5 hn).1
    | append src =>
        cases src with
        | none => rw [show xstep g (XOp.append none) xs = xs from rfl]; exact h
        | some sc =>
            by_cases hs0 : cstrlen sc = 0
            · rw [show xstep g (XOp.append (some sc)) xs = xstr_append g xs (some sc) from rfl,
                append_noop_empty g xs sc hs0]
              exact h
            · exact (append_spec g xs sc h hs0).1
    | appendSize src n =>
        cases src with
        | none => rw [show xstep g (XOp.appendSize none n) xs = xs from rfl]; exact h
        | some sc =>
            by_cases hn : n = 0
            · subst hn
              rw [show xstep g (XOp.appendSize (some sc) 0) xs = xstr_append_size g xs (some sc) 0 from rfl,
                appendSize_noop_zero]
              exact h
            · have hcs : n ≤ cstrlen sc := by simpa [argsOk] using hargs
              exact (appendSize_spec g xs sc n h hn hcs).1
    | appendChar c =>
        by_cases hc0 : c = 0
        · subst hc0
          simpa [xstep, xstr_append_char] using h
        · exact (appendChar_spec g xs c h hc0).1
    | setFormat r =>
        simp only [argsOk, Bool.and_eq_true, List.all_eq_true, decide_eq_true_eq] at hargs
        refine (setFormat_spec g xs r h ?_ hargs.2).1
        intro b hb
        simpa using hargs.1 b hb
    | appendFormat r =>
        simp only [argsOk, List.all_eq_true] at hargs
        refine (appendFormat_spec g xs r h ?_).1
        intro b hb
        simpa using hargs b hb
    | free =>
        rw [show xstep g XOp.free xs = xstr_free xs from rfl, free_spec xs h]
        exact ok_empty _

/-- Witness for C3: a concrete step on a concrete valid buffer. -/
theorem claim_C3_witness :
    xstr_ok (xstep 1 (XOp.appendChar 65) (xstr_create 1 [104, 105])) = true :=
  claim_C3_invariant_preserved.2 1 (XOp.appendChar 65) (xstr_create 1 [104, 105])
    (by decide) (by decide)

/-- C5 counterexample: the claim says reserve is a no-op when capacity is
already at least minLength; but the code uses a strict comparison, so with
capacity equal to minLength (here 0 and 0) it still allocates a fresh
backing chunk. -/
theorem claim_C5_counterexample :
    (xstr_create 1 []).a = 0 ∧
    xstr_reserve 1 (xstr_create 1 []) 0 ≠ xstr_create 1 [] ∧
    (xstr_reserve 1 (xstr_create 1 []) 0).nallocs = (xstr_create 1 []).nallocs + 1 := by
  decide

/-- C5 (amended): reserve(buffer, minLength) is a no-op exactly when
capacity is strictly greater than minLength; otherwise it performs one
fresh allocation of minLength+1 bytes, copies the content including its
terminator, keeps the length, and sets capacity to minLength (hence
capacity at least minLength afterwards). -/
theorem claim_C5_reserve (g l : Nat) (xs : xstr) (h : xstr_ok xs = true) :
    (l < xs.a → xstr_reserve g xs l = xs) ∧
    (xs.a ≤ l →
      (xstr_reserve g xs l).nallocs = xs.nallocs + 1 ∧
      (xstr_reserve g xs l).a = l ∧
      (xstr_reserve g xs l).len = xs.len ∧
      (xstr_reserve g xs l).s = some (contentOf xs ++ 0 :: List.replicate (l - xs.len) g) ∧
      (contentOf xs ++ 0 :: List.replicate (l - xs.len) g).length = l + 1) := by
  constructor
  · exact reserve_noop g xs l
  · intro hal
    rw [reserve_spec g l xs h hal]
    have hcl := content_length xs h
    have hla := ok_len_le xs h
    refine ⟨rfl, rfl, rfl, rfl, ?_⟩
    simp only [List.length_append, List.length_cons, List.length_replicate]
    omega

/-- Witness for C5 at a concrete buffer and minLength. -/
theorem claim_C5_witness :
    (xstr_reserve 1 (xstr_create 1 [104]) 5).nallocs = (xstr_create 1 [104]).nallocs + 1 :=
  ((claim_C5_reserve 1 5 (xstr_create 1 [104]) (by decide)).2 (by decide)).1

/-- C6 counterexample: setSized uses strncpy, which stops copying at the
first NUL of the source and zero-fills the rest, so the first n bytes of
the buffer are not the first n bytes of the source when the source has an
embedded NUL: copying 97,0,98 with n = 3 stores 97,0,0. -/
theorem claim_C6_counterexample :
    (xstr_set_size 1 (xstr_create 1 []) [97, 0, 98] 3).s = some [97, 0, 0, 0] ∧
    [97, 0, 0, 0].take 3 ≠ [97, 0, 98] := by decide

/-- C6 (amended): setSized(buffer, s, n) writes exactly n bytes with
strncpy semantics (the source up to its first NUL, then NUL padding),
writes a terminator at position n, and sets the length to n. -/
theorem claim_C6_set_size (g : Nat) (xs : xstr) (src : List Nat) (n : Nat)
    (h : xstr_ok xs = true) :
    ∃ st, (xstr_set_size g xs src n).s = some st ∧
      st.take n = strncpyBytes src n ∧ st.getD n 0 = 0 ∧
      (xstr_set_size g xs src n).len = n := by
  obtain ⟨st, h1, h2, h3, h4, _⟩ := setSize_spec g xs src n h
  exact ⟨st, h1, h2, h3, h4⟩

/-- Witness for C6 at a concrete buffer and source. -/
theorem claim_C6_witness :
    ∃ st, (xstr_set_size 1 (xstr_create 1 [120]) [97, 0, 98] 3).s = some st ∧
      st.take 3 = strncpyBytes [97, 0, 98] 3 ∧ st.getD 3 0 = 0 ∧
      (xstr_set_size 1 (xstr_create 1 [120]) [97, 0, 98] 3).len = 3 :=
  claim_C6_set_size 1 (xstr_create 1 [120]) [97, 0, 98] 3 (by decide)

/-- C7 counterexample: appendSized with a non-null empty source and n = 3
changes the buffer: the length field grows by 3 even though nothing was
appended. -/
theorem claim_C7_counterexample :
    xstr_append_size 1 (xstr_create 1 []) (some []) 3 ≠ xstr_create 1 [] ∧
    (xstr_append_size 1 (xstr_create 1 []) (some []) 3).len = 3 := by decide

/-- C7 (amended): append is a no-op for null or empty input, and
appendSized is a no-op for null input or count 0 (but not for an empty
source with a positive count). -/
theorem claim_C7_append_noops (g : Nat) (xs : xstr) (sc : List Nat) (n : Nat) :
    xstr_append g xs none = xs ∧
    (cstrlen sc = 0 → xstr_append g xs (some sc) = xs) ∧
    xstr_append_size g xs none n = xs ∧
    xstr_append_size g xs (some sc) 0 = xs :=
  ⟨append_noop_none g xs, fun hs0 => append_noop_empty g xs sc hs0,
   appendSize_noop_none g xs n, appendSize_noop_zero g xs sc⟩

/-- Witness for C7 at a concrete buffer. -/
theorem claim_C7_witness :
    xstr_append 1 (xstr_create 1 [104]) (some []) = xstr_create 1 [104] :=
  (claim_C7_append_noops 1 (xstr_create 1 [104]) [] 0).2.1 (by decide)

/-- C10: freeing a buffer leaves length 0, capacity 0 and a null backing
pointer; freeing again changes nothing; and every mutator operates
correctly on the freed buffer, re-allocating backing storage (its invariant
holds afterwards and the content is what the operation specifies). -/
theorem claim_C10_free_reset (g : Nat) (xs : xstr) (h : xstr_ok xs = true) :
    (xstr_free xs).s = none ∧ (xstr_free xs).len = 0 ∧ (xstr_free xs).a = 0 ∧
    xstr_free (xstr_free xs) = xstr_free xs ∧
    (∀ src, xstr_ok (xstr_set g (xstr_free xs) src) = true ∧
      contentOf (xstr_set g (xstr_free xs) src) = cstrOf src ∧
      (xstr_set g (xstr_free xs) src).s.isSome = true) ∧
    (∀ src n, n ≤ cstrlen src →
      xstr_ok (xstr_set_size g (xstr_free xs) src n) = true ∧
      contentOf (xstr_set_size g (xstr_free xs) src n) = (cstrOf src).take n ∧
      (xstr_set_size g (xstr_free xs) src n).s.isSome = true) ∧
    (∀ sc, cstrlen sc ≠ 0 →
      xstr_ok (xstr_append g (xstr_free xs) (some sc)) = true ∧
      contentOf (xstr_append g (xstr_free xs) (some sc)) = cstrOf sc ∧
      (xstr_append g (xstr_free xs) (some sc)).s.isSome = true) ∧
    (∀ sc n, n ≠ 0 → n ≤ cstrlen sc →
      xstr_ok (xstr_append_size g (xstr_free xs) (some sc) n) = true ∧
      contentOf (xstr_append_size g (xstr_free xs) (some sc) n) = (cstrOf sc).take n ∧
      (xstr_append_size g (xstr_free xs) (some sc) n).s.isSome = true) ∧
    (∀ c0, c0 ≠ 0 →
      xstr_ok (xstr_append_char g (xstr_free xs) c0) = true ∧
      contentOf (xstr_append_char g (xstr_free xs) c0) = [c0] ∧
      (xstr_append_char g (xstr_free xs) c0).s.isSome = true) ∧
    (∀ r0, (∀ b ∈ r0, b ≠ 0) → r0 ≠ [] →
      xstr_ok (xstr_set_format g (xstr_free xs) r0) = true ∧
      contentOf (xstr_set_format g (xstr_free xs) r0) = r0 ∧
      (xstr_set_format g (xstr_free xs) r0).s.isSome = true) ∧
    (∀ r0, (∀ b ∈ r0, b ≠ 0) →
      xstr_ok (xstr_append_format g (xstr_free xs) r0) = true ∧
      contentOf (xstr_append_format g (xstr_free xs) r0) = r0 ∧
      (xstr_append_format g (xstr_free xs) r0).s.isSome = true) := by
  have hf := free_spec xs h
  have hok : xstr_ok (xstr_free xs) = true := by rw [hf]; exact ok_empty _
  have hcont : contentOf (xstr_free xs) = [] := by rw [hf]; rfl
  have hlen0 : (xstr_free xs).len = 0 := by rw [hf]
  refine ⟨by rw [hf], by rw [hf], by rw [hf], by rw [hf]; rfl, ?_, ?_, ?_, ?_, ?_, ?_, ?_⟩
  · intro src
    obtain ⟨h1, h2, h3, h4⟩ := set_spec g (xstr_free xs) src hok
    exact ⟨h1, h2, h4⟩
  · intro src n hn
    obtain ⟨st, h1, h2, h3, h4, h5⟩ := setSize_spec g (xstr_free xs) src n hok
    refine ⟨(h5 hn).1, (h5 hn).2, ?_⟩
    rw [h1]
    rfl
  · intro sc hs0
    obtain ⟨h1, h2, h3, h4⟩ := append_spec g (xstr_free xs) sc hok hs0
    rw [hcont] at h2
    exact ⟨h1, by simpa using h2, h4⟩
  · intro sc n hn hcs
    obtain ⟨h1, h2, h3, h4⟩ := appendSize_spec g (xstr_free xs) sc n hok hn hcs
    rw [hcont] at h2
    exact ⟨h1, by simpa using h2, h4⟩
  · intro c0 hc0
    obtain ⟨h1, h2, h3, h4⟩ := appendChar_spec g (xstr_free xs) c0 hok hc0
    rw [hcont] at h2
    exact ⟨h1, by simpa using h2, h4⟩
  · intro r0 hz hne
    obtain ⟨h1, h2, h3, h4⟩ := setFormat_spec g (xstr_free xs) r0 hok hz hne
    exact ⟨h1, h2, h4⟩
  · intro r0 hz
    obtain ⟨h1, h2, h3, h4⟩ := appendFormat_spec g (xstr_free xs) r0 hok hz
    rw [hcont] at h2
    exact ⟨h1, by simpa using h2, h4⟩

/-- Witness for C10 at a concrete buffer. -/
theorem claim_C10_witness :
    (xstr_free (xstr_create 1 [104, 105])).s = none ∧
    (xstr_free (xstr_create 1 [104, 105])).len = 0 ∧
    (xstr_free (xstr_create 1 [104, 105])).a = 0 :=
  have h10 := claim_C10_free_reset 1 (xstr_create 1 [104, 105]) (by decide)
  ⟨h10.1, h10.2.1, h10.2.2.1⟩

/-! Lemmas for xstr_strip: characterizing the two scan loops -/

theorem getD_append_ge (A B : List Nat) (m : Nat) :
    (A ++ B).getD (A.length + m) 0 = B.getD m 0 := by
  induction A with
  | nil => simp
  | cons y t ih =>
      have hidx : ((y :: t) : List Nat).length + m = (t.length + m) + 1 := by
        simp
        omega
      rw [hidx]
      simpa [List.getD] using ih

theorem stripFwd_spec (c rest : List Nat) (i : Nat) :
    stripFwd (c ++ rest) c.length i = i + (c.takeWhile (fun b => !graphB b)).length := by
  induction c generalizing i with
  | nil => simp [stripFwd]
  | cons b t ih =>
      by_cases hb : graphB b
      · simp [stripFwd, hb, List.takeWhile_cons]
      · have hb2 : (!graphB b) = true := by simp [hb]
        have hstep : stripFwd ((b :: t) ++ rest) ((b :: t) : List Nat).length i =
            stripFwd (t ++ rest) t.length (i + 1) := by
          simp [stripFwd, hb]
        rw [hstep, ih, List.takeWhile_cons, if_pos hb2]
        simp
        omega

theorem stripBwd_lt (st : List Nat) (i : Nat) :
    ∀ j, j < i → stripBwd st i j = none := by
  intro j hj
  cases j with
  | zero =>
      simp only [stripBwd]
      rw [if_pos hj]
  | succ j =>
      simp only [stripBwd]
      rw [if_pos hj]

theorem stripBwd_found (st : List Nat) (i J : Nat) :
    ∀ j, graphB (st.getD J 0) = true → i ≤ J → J ≤ j →
      (∀ k, J < k → k ≤ j → graphB (st.getD k 0) = false) →
      stripBwd st i j = some J := by
  intro j
  induction j with
  | zero =>
      intro hg hiJ hJj _
      have hJ0 : J = 0 := by omega
      subst hJ0
      simp only [stripBwd]
      rw [if_neg (by omega : ¬ 0 < i), if_pos hg]
  | succ j ih =>
      intro hg hiJ hJj hab
      by_cases hJ : J = j + 1
      · subst hJ
        simp only [stripBwd]
        rw [if_neg (by omega : ¬ j + 1 < i), if_pos hg]
      · have hJle : J ≤ j := by omega
        have hnot : graphB (st.getD (j + 1) 0) = false := hab (j + 1) (by omega) (le_refl _)
        simp only [stripBwd]
        rw [if_neg (by omega : ¬ j + 1 < i), if_neg (by simpa using hnot)]
        exact ih hg hiJ hJle (fun k h1 h2 => hab k h1 (by omega))

theorem stripBwd_none (st : List Nat) (i : Nat) :
    ∀ j, (∀ k, i ≤ k → k ≤ j → graphB (st.getD k 0) = false) → stripBwd st i j = none := by
  intro j
  induction j with
  | zero =>
      intro hab
      by_cases hi : 0 < i
      · simp only [stripBwd]
        rw [if_pos hi]
      · have h0 : graphB (st.getD 0 0) = false := hab 0 (by omega) (le_refl _)
        simp only [stripBwd]
        rw [if_neg hi, if_neg (by simpa using h0)]
  | succ j ih =>
      intro hab
      by_cases hi : j + 1 < i
      · simp only [stripBwd]
        rw [if_pos hi]
      · have hj1 : graphB (st.getD (j + 1) 0) = false := hab (j + 1) (by omega) (le_refl _)
        simp only [stripBwd]
        rw [if_neg hi, if_neg (by simpa using hj1)]
        exact ih (fun k h1 h2 => hab k h1 (by omega))

theorem rdrop_append_rtake (p : Nat → Bool) (l : List Nat) :
    l.rdropWhile p ++ l.rtakeWhile p = l := by
  unfold List.rdropWhile List.rtakeWhile
  rw [← List.reverse_append, List.takeWhile_append_dropWhile, List.reverse_reverse]

theorem dropWhile_head_false (p : Nat → Bool) (c : List Nat) (x : Nat) (d : List Nat)
    (h : c.dropWhile p = x :: d) : p x = false := by
  induction c with
  | nil => simp at h
  | cons y t ih =>
      rw [List.dropWhile_cons] at h
      by_cases hy : p y
      · rw [if_pos hy] at h
        exact ih h
      · rw [if_neg hy] at h
        injection h with h1 h2
        subst h1
        simpa using hy

/-- C8: strip returns a freshly allocated string equal to the buffer
content with all leading and trailing non-graphical characters removed
(located by the forward and backward scans), returning the empty string for
an empty or entirely non-graphical buffer; the source buffer is only read.
The returned bytes are the trimmed content followed by the NUL terminator. -/
theorem claim_C8_strip (xs : xstr) (st : List Nat) (h : xstr_ok xs = true)
    (hs : xs.s = some st) :
    xstr_strip xs = graphTrim (contentOf xs) ++ [0] := by
  obtain ⟨c, r, hst, hclen, hc, hle, hlen⟩ := okDecomp xs st h hs
  subst hst
  have hcontent : contentOf xs = c := by
    simp only [contentOf, hs, ← hclen, take_append_len]
  rw [hcontent]
  simp only [xstr_strip]
  rw [hs]
  dsimp only
  have hi : stripFwd (c ++ 0 :: r) xs.len 0 =
      (c.takeWhile (fun b => !graphB b)).length := by
    rw [← hclen]
    simpa using stripFwd_spec c (0 :: r) 0
  rw [hi]
  have hg0 : graphB 0 = false := rfl
  cases hd : c.dropWhile (fun b => !graphB b) with
  | nil =>
      have htw : c.takeWhile (fun b => !graphB b) = c := by
        have hcall := List.takeWhile_append_dropWhile (fun b => !graphB b) c
        rw [hd] at hcall
        simpa using hcall
      rw [htw, ← hclen]
      have hall : ∀ k, c.length ≤ k → k ≤ c.length →
          graphB ((c ++ 0 :: r).getD k 0) = false := by
        intro k h1 h2
        have hk : k = c.length := by omega
        subst hk
        rw [getD_append_len]
        exact hg0
      rw [stripBwd_none (c ++ 0 :: r) c.length c.length hall]
      rw [graphTrim, hd]
      simp
  | cons x dtl =>
      have hx : graphB x = true := by
        have := dropWhile_head_false (fun b => !graphB b) c x dtl hd
        simpa using this
      have ht_ne : (x :: dtl).rdropWhile (fun b => !graphB b) ≠ [] := by
        rw [ne_eq, List.rdropWhile_eq_nil_iff]
        intro hallp
        have := hallp x (by simp)
        simp [hx] at this
      have hdu : (x :: dtl).rdropWhile (fun b => !graphB b) ++
          (x :: dtl).rtakeWhile (fun b => !graphB b) = x :: dtl :=
        rdrop_append_rtake _ _
      have hcdecomp : c = c.takeWhile (fun b => !graphB b) ++
          ((x :: dtl).rdropWhile (fun b => !graphB b) ++
            (x :: dtl).rtakeWhile (fun b => !graphB b)) := by
        rw [hdu, ← hd, List.takeWhile_append_dropWhile]
      have hu : ∀ y ∈ (x :: dtl).rtakeWhile (fun b => !graphB b), graphB y = false := by
        intro y hy
        have := List.mem_rtakeWhile_imp hy
        simpa using this
      have hlast_graph :
          graphB (((x :: dtl).rdropWhile (fun b => !graphB b)).getLast ht_ne) = true := by
        have := List.rdropWhile_last_not (fun b => !graphB b) (x :: dtl) ht_ne
        simpa using this
      -- abbreviations as plain terms
      have htpos : 0 < ((x :: dtl).rdropWhile (fun b => !graphB b)).length :=
        List.length_pos.mpr ht_ne
      -- the storage decomposed around the last graphical byte
      have hstdecomp : c ++ 0 :: r =
          (c.takeWhile (fun b => !graphB b) ++ (x :: dtl).rdropWhile (fun b => !graphB b)) ++
            ((x :: dtl).rtakeWhile (fun b => !graphB b) ++ 0 :: r) := by
        conv_lhs => rw [hcdecomp]
        simp [List.append_assoc]
      have hJ :
          (c ++ 0 :: r).getD ((c.takeWhile (fun b => !graphB b)).length +
              ((x :: dtl).rdropWhile (fun b => !graphB b)).length - 1) 0 =
            ((x :: dtl).rdropWhile (fun b => !graphB b)).getLast ht_ne := by
        rw [hstdecomp]
        have hidx : (c.takeWhile (fun b => !graphB b)).length +
            ((x :: dtl).rdropWhile (fun b => !graphB b)).length - 1 <
              (c.takeWhile (fun b => !graphB b) ++
                (x :: dtl).rdropWhile (fun b => !graphB b)).length := by
          simp only [List.length_append]
          omega
        rw [getD_append_lt _ _ _ hidx]
        have hidx2 : (c.takeWhile (fun b => !graphB b)).length +
            ((x :: dtl).rdropWhile (fun b => !graphB b)).length - 1 =
            (c.takeWhile (fun b => !graphB b)).length +
              (((x :: dtl).rdropWhile (fun b => !graphB b)).length - 1) := by
          omega
        rw [hidx2, getD_append_ge]
        have hlt : ((x :: dtl).rdropWhile (fun b => !graphB b)).length - 1 <
            ((x :: dtl).rdropWhile (fun b => !graphB b)).length := by omega
        rw [List.getD_eq_getElem _ _ hlt]
        rw [List.getLast_eq_getElem]
      set tw := c.takeWhile (fun b => !graphB b) with htw_def
      set t := (x :: dtl).rdropWhile (fun b => !graphB b) with ht_def
      set u := (x :: dtl).rtakeWhile (fun b => !graphB b) with hu_def
      have hclen2 : c.length = tw.length + t.length + u.length := by
        conv_lhs => rw [hcdecomp]
        simp [List.length_append]
        omega
      have habove : ∀ k, tw.length + t.length - 1 < k → k ≤ xs.len →
          graphB ((c ++ 0 :: r).getD k 0) = false := by
        intro k h1 h2
        rw [← hclen] at h2
        have hk1 : tw.length + t.length ≤ k := by omega
        have hk2 : k ≤ tw.length + t.length + u.length := by omega
        have hkeq : k = (tw ++ t).length + (k - (tw.length + t.length)) := by
          simp only [List.length_append]
          omega
        rw [hstdecomp, hkeq, getD_append_ge]
        by_cases hm : k - (tw.length + t.length) < u.length
        · rw [getD_append_lt _ _ _ hm]
          rw [List.getD_eq_getElem _ _ hm]
          exact hu _ (List.getElem_mem _)
        · have hmeq : k - (tw.length + t.length) = u.length := by omega
          rw [hmeq, getD_append_len]
          exact hg0
      have hfound : stripBwd (c ++ 0 :: r) tw.length xs.len =
          some (tw.length + t.length - 1) := by
        apply stripBwd_found
        · rw [hJ]
          exact hlast_graph
        · omega
        · rw [← hclen]
          omega
        · exact habove
      rw [hfound]
      dsimp only
      have hcopy : tw.length + t.length - 1 + 1 - tw.length = t.length := by omega
      rw [hcopy]
      have hflat : c ++ 0 :: r = tw ++ (t ++ (u ++ 0 :: r)) := by
        conv_lhs => rw [hcdecomp]
        simp [List.append_assoc]
      have hdrop2 : (c ++ 0 :: r).drop tw.length = t ++ (u ++ 0 :: r) := by
        rw [hflat, drop_append_len]
      rw [hdrop2, take_append_len]
      rw [graphTrim, hd]

/-- Witness for C8: strip of a buffer holding two spaces, hello, two
spaces yields hello. -/
theorem claim_C8_witness :
    xstr_strip (xstr_create 1 [32, 32, 104, 101, 108, 108, 111, 32, 32]) =
      graphTrim (contentOf (xstr_create 1 [32, 32, 104, 101, 108, 108, 111, 32, 32])) ++ [0] :=
  claim_C8_strip (xstr_create 1 [32, 32, 104, 101, 108, 108, 111, 32, 32])
    [32, 32, 104, 101, 108, 108, 111, 32, 32, 0] (by decide) (by decide)

/-! Heap (association list) lemmas for the allocation manager -/

theorem hget_hmap (f : mmchunk → mmchunk) (b : Nat) (h : Heap) (a : Nat) :
    hget (hmap f b h) a = if a = b then (hget h a).map f else hget h a := by
  induction h with
  | nil => simp [hmap, hget]
  | cons q t ih =>
      obtain ⟨x, cx⟩ := q
      have hhead : hmap f b ((x, cx) :: t) =
          (if x = b then (x, f cx) else (x, cx)) :: hmap f b t := by
        simp only [hmap, List.map_cons]
      rw [hhead]
      by_cases hxb : x = b
      · rw [if_pos hxb]
        simp only [hget]
        by_cases hax : x = a
        · rw [if_pos hax, if_pos (by omega : a = b)]
          simp [hax]
        · rw [if_neg hax, ih]
          simp [hax]
      · rw [if_neg hxb]
        simp only [hget]
        by_cases hax : x = a
        · rw [if_pos hax, if_neg (by omega : ¬ a = b)]
          simp [hax]
        · rw [if_neg hax, ih]
          simp [hax]

theorem keys_hmap (f : mmchunk → mmchunk) (b : Nat) (h : Heap) :
    (hmap f b h).map Prod.fst = h.map Prod.fst := by
  induction h with
  | nil => rfl
  | cons q t ih =>
      obtain ⟨x, cx⟩ := q
      by_cases hxb : x = b <;> simp [hmap, hxb] <;> simpa [hmap] using ih

theorem hget_append_left (h1 h2 : Heap) (a : Nat) (c : mmchunk) (h : hget h1 a = some c) :
    hget (h1 ++ h2) a = some c := by
  induction h1 with
  | nil => simp [hget] at h
  | cons q t ih =>
      obtain ⟨x, cx⟩ := q
      by_cases hxa : x = a
      · simp only [hget, if_pos hxa] at h
        simp [hget, hxa, h]
      · simp only [hget, if_neg hxa] at h
        simp only [List.cons_append, hget, if_neg hxa]
        exact ih h

theorem hget_append_right (h1 h2 : Heap) (a : Nat) (h : hget h1 a = none) :
    hget (h1 ++ h2) a = hget h2 a := by
  induction h1 with
  | nil => rfl
  | cons q t ih =>
      obtain ⟨x, cx⟩ := q
      by_cases hxa : x = a
      · simp [hget, hxa] at h
      · simp only [hget, if_neg hxa] at h
        simp only [List.cons_append, hget, if_neg hxa]
        exact ih h

theorem hget_none_of_not_mem (h : Heap) (a : Nat) (hnm : a ∉ h.map Prod.fst) :
    hget h a = none := by
  induction h with
  | nil => rfl
  | cons q t ih =>
      obtain ⟨x, cx⟩ := q
      simp only [List.map_cons, List.mem_cons] at hnm
      push_neg at hnm
      have hxa : ¬ x = a := fun hh => hnm.1 hh.symm
      simp only [hget, if_neg hxa]
      exact ih hnm.2

theorem keys_hremove (h : Heap) (a : Nat) :
    (hremove h a).map Prod.fst = (h.map Prod.fst).erase a := by
  induction h with
  | nil => rfl
  | cons q t ih =>
      obtain ⟨x, cx⟩ := q
      by_cases hxa : x = a
      · subst hxa
        simp [hremove, List.erase_cons_head]
      · have hbeq : ¬ (x == a) = true := by simpa using hxa
        simp only [hremove, if_neg hxa, List.map_cons, List.erase_cons]
        rw [if_neg hbeq]
        simp [ih]

theorem hget_hremove_ne (h : Heap) (a b : Nat) (hne : b ≠ a) :
    hget (hremove h a) b = hget h b := by
  induction h with
  | nil => rfl
  | cons q t ih =>
      obtain ⟨x, cx⟩ := q
      by_cases hxa : x = a
      · subst hxa
        have hxb : ¬ x = b := fun hh => hne hh.symm
        simp [hremove, hget, hxb]
      · simp only [hremove, if_neg hxa, hget]
        by_cases hxb : x = b
        · simp [hxb]
        · simp only [if_neg hxb]
          exact ih

theorem hget_hremove_self (h : Heap) (a : Nat) (hnd : (h.map Prod.fst).Nodup) :
    hget (hremove h a) a = none := by
  induction h with
  | nil => rfl
  | cons q t ih =>
      obtain ⟨x, cx⟩ := q
      simp only [List.map_cons, List.nodup_cons] at hnd
      by_cases hxa : x = a
      · subst hxa
        simp only [hremove, if_pos rfl]
        exact hget_none_of_not_mem t x hnd.1
      · simp only [hremove, if_neg hxa, hget, if_neg hxa]
        exact ih hnd.2

theorem erase_middle (x : Nat) (A B : List Nat) (hnA : x ∉ A) :
    (A ++ x :: B).erase x = A ++ B := by
  induction A with
  | nil => simp [List.erase_cons_head]
  | cons y t ih =>
      simp only [List.mem_cons] at hnA
      push_neg at hnA
      have hyx : ¬ (y == x) = true := by simpa using fun hh => hnA.1 hh.symm
      have hyx2 : ¬ (y == x) = true := hyx
      simp only [List.cons_append, List.erase_cons]
      rw [if_neg hyx]
      simp [ih hnA.2]

theorem getLastD_cons2 (b d : Nat) (l : List Nat) :
    (b :: l).getLastD d = l.getLastD b := by
  cases l <;> rfl

theorem getLastD_concat (a d : Nat) (l : List Nat) :
    (l ++ [a]).getLastD d = a := by
  induction l generalizing d with
  | nil => rfl
  | cons y t ih =>
      rw [List.cons_append, getLastD_cons2]
      exact ih y

theorem getLastD_mem (l : List Nat) (d : Nat) (h : l ≠ []) : l.getLastD d ∈ l := by
  induction l generalizing d with
  | nil => exact absurd rfl h
  | cons y t ih =>
      rw [getLastD_cons2]
      cases ht : t with
      | nil => simp [List.getLastD]
      | cons z t2 =>
          have hmem := ih y (by simp [ht])
          rw [ht] at hmem
          exact List.mem_cons_of_mem y hmem

theorem incrB_pairwise (l : List Nat) (h : incrB l = true) : l.Pairwise (· < ·) := by
  induction l with
  | nil => simp
  | cons x t ih =>
      cases t with
      | nil => simp
      | cons y t2 =>
          simp only [incrB, Bool.and_eq_true, decide_eq_true_eq] at h
          have hp := ih h.2
          constructor
          · intro b hb
            rcases List.mem_cons.mp hb with rfl | hb
            · exact h.1
            · have : y < b := (List.pairwise_cons.mp hp).1 b hb
              omega
          · exact hp

theorem pairwise_incrB (l : List Nat) (h : l.Pairwise (· < ·)) : incrB l = true := by
  induction l with
  | nil => rfl
  | cons x t ih =>
      cases t with
      | nil => rfl
      | cons y t2 =>
          obtain ⟨hx, hp⟩ := List.pairwise_cons.mp h
          simp only [incrB, Bool.and_eq_true, decide_eq_true_eq]
          exact ⟨hx y (by simp), ih hp⟩

theorem allLtB_iff (l : List Nat) (n : Nat) : allLtB l n = true ↔ ∀ x ∈ l, x < n := by
  simp [allLtB]

theorem allocSum_append (h : Heap) (l1 l2 : List Nat) :
    allocSum h (l1 ++ l2) = allocSum h l1 + allocSum h l2 := by
  simp [allocSum]

theorem allocSum_congr (h1 h2 : Heap) (l : List Nat)
    (hs : ∀ a ∈ l, hget h1 a = hget h2 a) :
    allocSum h1 l = allocSum h2 l := by
  unfold allocSum
  congr 1
  apply List.map_congr_left
  intro a ha
  rw [hs a ha]

/-! Chain lemmas -/

theorem chainOk_congr (h1 h2 : Heap) :
    ∀ (l : List Nat) (p : Nat) (cur : Option Nat),
      (∀ a ∈ l, hget h1 a = hget h2 a) →
      chainOk h1 p cur l = chainOk h2 p cur l := by
  intro l
  induction l with
  | nil =>
      intro p cur _
      cases cur <;> rfl
  | cons b rest ih =>
      intro p cur hsame
      cases cur with
      | none => rfl
      | some a =>
          simp only [chainOk]
          by_cases hab : a = b
          · subst hab
            have hh := hsame a (by simp)
            rw [hh]
            cases hget h2 a with
            | none => rfl
            | some cc =>
                simp only
                rw [ih a cc.next (fun y hy => hsame y (by simp [hy]))]
          · have : (a == b) = false := by simpa using hab
            simp [this]

theorem chainOk_cur (h : Heap) (p : Nat) (cur : Option Nat) (l : List Nat)
    (hch : chainOk h p cur l = true) :
    cur = l.head? := by
  cases l with
  | nil => cases cur with
      | none => rfl
      | some a => simp [chainOk] at hch
  | cons b rest =>
      cases cur with
      | none => simp [chainOk] at hch
      | some a =>
          simp only [chainOk, Bool.and_eq_true, beq_iff_eq] at hch
          simp [hch.1]

theorem chainOk_at (h : Heap) (a : Nat) (l2 : List Nat) :
    ∀ (l1 : List Nat) (p : Nat) (cur : Option Nat),
      chainOk h p cur (l1 ++ a :: l2) = true →
      ∃ c, hget h a = some c ∧ c.tag = true ∧ c.prev = l1.getLastD p ∧
        c.next = l2.head? := by
  intro l1
  induction l1 with
  | nil =>
      intro p cur hch
      have hcur := chainOk_cur h p cur _ hch
      simp only [List.nil_append, List.head?_cons] at hcur hch
      subst hcur
      simp only [chainOk, Bool.and_eq_true, beq_iff_eq] at hch
      obtain ⟨_, hrest⟩ := hch
      cases hcg : hget h a with
      | none => rw [hcg] at hrest; exact absurd hrest (by simp)
      | some c =>
          rw [hcg] at hrest
          simp only [Bool.and_eq_true, beq_iff_eq] at hrest
          obtain ⟨⟨htag, hprev⟩, hchrest⟩ := hrest
          refine ⟨c, rfl, htag, by simpa using hprev, ?_⟩
          exact chainOk_cur h a c.next l2 hchrest
  | cons y l1t ih =>
      intro p cur hch
      have hcur := chainOk_cur h p cur _ hch
      simp only [List.cons_append, List.head?_cons] at hcur hch
      subst hcur
      simp only [chainOk, Bool.and_eq_true, beq_iff_eq] at hch
      obtain ⟨_, hrest⟩ := hch
      cases hcg : hget h y with
      | none => rw [hcg] at hrest; exact absurd hrest (by simp)
      | some cy =>
          rw [hcg] at hrest
          simp only [Bool.and_eq_true, beq_iff_eq] at hrest
          obtain ⟨⟨htag, hprev⟩, hchrest⟩ := hrest
          obtain ⟨c, hgc, hct, hcp, hcn⟩ := ih y cy.next hchrest
          refine ⟨c, hgc, hct, ?_, hcn⟩
          rw [getLastD_cons2]
          exact hcp

theorem chainOk_snoc (h : Heap) (na : Nat) (nc : mmchunk)
    (hnm : hget h na = none) (htag : nc.tag = true) (hnext : nc.next = none) :
    ∀ (l : List Nat) (p : Nat) (cur : Option Nat),
      chainOk h p cur l = true → l.Nodup → l ≠ [] →
      nc.prev = l.getLastD p →
      chainOk (hmap (fun cc => { cc with next := some na }) (l.getLastD p) h ++ [(na, nc)])
        p cur (l ++ [na]) = true := by
  intro l
  induction l with
  | nil =>
      intro p cur _ _ hne _
      exact absurd rfl hne
  | cons b rest ih =>
      intro p cur hch hnd hne hprev
      have hcur := chainOk_cur h p cur _ hch
      simp only [List.head?_cons] at hcur
      subst hcur
      simp only [chainOk, Bool.and_eq_true, beq_iff_eq] at hch
      obtain ⟨_, hrest⟩ := hch
      cases hcg : hget h b with
      | none => rw [hcg] at hrest; exact absurd hrest (by simp)
      | some cb =>
          rw [hcg] at hrest
          simp only [Bool.and_eq_true, beq_iff_eq] at hrest
          obtain ⟨⟨htagb, hprevb⟩, hchrest⟩ := hrest
          have hbna : b ≠ na := by
            intro hh
            rw [hh, hnm] at hcg
            exact absurd hcg (by simp)
          cases rest with
          | nil =>
              have hL : ((b :: []) : List Nat).getLastD p = b := rfl
              rw [hL] at hprev ⊢
              have hcbnext : cb.next = none := chainOk_cur h b cb.next [] hchrest
              have hgb2 : hget (hmap (fun cc => { cc with next := some na }) b h ++ [(na, nc)]) b =
                  some { cb with next := some na } := by
                apply hget_append_left
                rw [hget_hmap, if_pos rfl, hcg]
                rfl
              have hgna : hget (hmap (fun cc => { cc with next := some na }) b h ++ [(na, nc)]) na =
                  some nc := by
                rw [hget_append_right]
                · simp [hget]
                · rw [hget_hmap, if_neg (fun hh => hbna hh.symm), hnm]
              simp only [List.cons_append, List.nil_append, chainOk, hgb2, hgna]
              simp [htagb, hprevb, htag, hprev, hnext, chainOk]
          | cons m rest2 =>
              have hLcons : ((b :: m :: rest2) : List Nat).getLastD p = (m :: rest2).getLastD b :=
                getLastD_cons2 b p (m :: rest2)
              rw [hLcons] at hprev ⊢
              have hLmem : (m :: rest2).getLastD b ∈ m :: rest2 := getLastD_mem _ _ (by simp)
              have hbL : b ≠ (m :: rest2).getLastD b := by
                have hbnotmem : b ∉ m :: rest2 := (List.nodup_cons.mp hnd).1
                intro hh
                rw [← hh] at hLmem
                exact hbnotmem hLmem
              have hgb2 : hget (hmap (fun cc => { cc with next := some na })
                  ((m :: rest2).getLastD b) h ++ [(na, nc)]) b = some cb := by
                apply hget_append_left
                rw [hget_hmap, if_neg hbL, hcg]
              have hih := ih b cb.next hchrest (List.nodup_cons.mp hnd).2 (by simp) hprev
              simp only [List.cons_append] at hih ⊢
              simp only [chainOk, hgb2]
              simp only [Bool.and_eq_true, beq_iff_eq]
              exact ⟨trivial, ⟨htagb, by simpa using hprevb⟩, hih⟩

theorem chainOk_unlink_tail (h : Heap) (a : Nat) (c : mmchunk) (hgc : hget h a = some c) :
    ∀ (l1 : List Nat) (p : Nat) (cur : Option Nat),
      chainOk h p cur (l1 ++ [a]) = true →
      p ≠ a → a ∉ l1 → p ∉ l1 → l1.Nodup →
      chainOk (hremove (hmap (fun x => { x with next := c.next }) c.prev h) a) p
        (if l1 = [] then none else cur) l1 = true := by
  intro l1
  induction l1 with
  | nil =>
      intro p cur _ _ _ _ _
      simp [chainOk]
  | cons y l1t ih =>
      intro p cur hch hpa hal1 hpl1 hnd1
      have hcur := chainOk_cur h p cur _ hch
      simp only [List.cons_append, List.head?_cons] at hcur
      subst hcur
      simp only [List.cons_append, chainOk, Bool.and_eq_true, beq_iff_eq] at hch
      obtain ⟨_, hrest⟩ := hch
      cases hcg : hget h y with
      | none => rw [hcg] at hrest; exact absurd hrest (by simp)
      | some cy =>
          rw [hcg] at hrest
          simp only [Bool.and_eq_true, beq_iff_eq] at hrest
          obtain ⟨⟨htagy, hprevy⟩, hchrest⟩ := hrest
          have hya : y ≠ a := by
            intro hh
            exact hal1 (by simp [hh])
          obtain ⟨cc, hgcc, hcct, hccp, hccn⟩ := chainOk_at h a [] l1t y cy.next hchrest
          have hccc : cc = c := by
            rw [hgc] at hgcc
            injection hgcc with hcc2
            exact hcc2.symm
          rw [hccc] at hccp hccn
          simp only [List.head?_nil] at hccn
          cases l1t with
          | nil =>
              have hcprev : c.prev = y := by simpa using hccp
              have hcynext : cy.next = some a := by
                simpa using chainOk_cur h y cy.next ([] ++ [a]) hchrest
              have hgy2 : hget (hremove (hmap (fun x => { x with next := c.next }) c.prev h) a) y =
                  some { cy with next := c.next } := by
                rw [hget_hremove_ne _ _ _ hya, hget_hmap, hcprev, if_pos rfl, hcg]
                rfl
              simp only [if_neg (by simp : ¬ ([y] : List Nat) = []), chainOk,
                Bool.and_eq_true, beq_iff_eq]
              rw [hgy2]
              simp only [Bool.and_eq_true, beq_iff_eq]
              refine ⟨trivial, ⟨htagy, by simpa using hprevy⟩, ?_⟩
              rw [hccn]
              simp [chainOk]
          | cons z l1tt =>
              have hcprev : c.prev = (z :: l1tt).getLastD y := by simpa using hccp
              have hcpmem : (z :: l1tt).getLastD y ∈ z :: l1tt := getLastD_mem _ _ (by simp)
              have hycp : y ≠ c.prev := by
                rw [hcprev]
                intro hh
                rw [← hh] at hcpmem
                exact (List.nodup_cons.mp hnd1).1 hcpmem
              have hgy2 : hget (hremove (hmap (fun x => { x with next := c.next }) c.prev h) a) y =
                  some cy := by
                rw [hget_hremove_ne _ _ _ hya, hget_hmap, if_neg hycp, hcg]
              have hih := ih y cy.next hchrest hya
                (fun hh => hal1 (by simp [hh]))
                (List.nodup_cons.mp hnd1).1
                (List.nodup_cons.mp hnd1).2
              rw [if_neg (by simp : ¬ ((z :: l1tt) : List Nat) = [])] at hih
              simp only [if_neg (by simp : ¬ ((y :: z :: l1tt) : List Nat) = []), chainOk,
                Bool.and_eq_true, beq_iff_eq]
              rw [hgy2]
              simp only [Bool.and_eq_true, beq_iff_eq]
              exact ⟨trivial, ⟨htagy, by simpa using hprevy⟩, hih⟩

theorem chainOk_relink_core (h : Heap) (a n q : Nat) (c cn : mmchunk) (lr : List Nat)
    (hgc : hget h a = some c) (hcp : c.prev = q) (hcn : c.next = some n)
    (hgn : hget h n = some cn) (hcnt : cn.tag = true) (hcnp : cn.prev = a)
    (hch : chainOk h n cn.next lr = true)
    (hna : n ≠ a) (hnq : n ≠ q)
    (hl : ∀ y ∈ lr, y ≠ a ∧ y ≠ n ∧ y ≠ q) :
    chainOk (hremove (hmap (fun x => { x with prev := c.prev })
        n (hmap (fun x => { x with next := c.next }) c.prev h)) a) q
      (some n) (n :: lr) = true := by
  have hgn2 : hget (hremove (hmap (fun x => { x with prev := c.prev })
      n (hmap (fun x => { x with next := c.next }) c.prev h)) a) n =
      some { cn with prev := c.prev } := by
    rw [hget_hremove_ne _ _ _ hna, hget_hmap, if_pos rfl, hget_hmap, hcp, if_neg hnq, hgn]
    rfl
  simp only [chainOk, Bool.and_eq_true, beq_iff_eq]
  rw [hgn2]
  simp only [Bool.and_eq_true, beq_iff_eq]
  refine ⟨trivial, ⟨hcnt, by simp [hcp]⟩, ?_⟩
  rw [chainOk_congr _ h lr n cn.next ?_]
  · exact hch
  · intro y hy
    obtain ⟨hya, hyn, hyq⟩ := hl y hy
    rw [hget_hremove_ne _ _ _ hya, hget_hmap, if_neg hyn, hget_hmap, hcp, if_neg hyq]

theorem chainOk_unlink_mid (h : Heap) (a n : Nat) (c : mmchunk) (lr : List Nat)
    (hgc : hget h a = some c) (hcn : c.next = some n) (hna : n ≠ a) :
    ∀ (l1 : List Nat) (p : Nat) (cur : Option Nat),
      chainOk h p cur (l1 ++ a :: n :: lr) = true →
      p ≠ a → p ≠ n → p ∉ lr → a ∉ l1 → n ∉ l1 → p ∉ l1 →
      a ∉ lr → n ∉ lr → l1.Nodup → (∀ y ∈ l1, y ∉ lr) →
      chainOk (hremove (hmap (fun x => { x with prev := c.prev })
          n (hmap (fun x => { x with next := c.next }) c.prev h)) a) p
        (if l1 = [] then some n else cur) (l1 ++ n :: lr) = true := by
  intro l1
  induction l1 with
  | nil =>
      intro p cur hch hpa hpn hplr _ _ _ halr hnlr _ _
      have hcur := chainOk_cur h p cur _ hch
      simp only [List.nil_append, List.head?_cons] at hcur
      subst hcur
      simp only [List.nil_append, chainOk, Bool.and_eq_true, beq_iff_eq] at hch
      obtain ⟨_, hrest⟩ := hch
      rw [hgc] at hrest
      simp only [Bool.and_eq_true, beq_iff_eq] at hrest
      obtain ⟨⟨_, hprevc⟩, hchrest⟩ := hrest
      rw [hcn] at hchrest
      simp only [chainOk, Bool.and_eq_true, beq_iff_eq] at hchrest
      obtain ⟨_, hrest2⟩ := hchrest
      cases hgnn : hget h n with
      | none => rw [hgnn] at hrest2; exact absurd hrest2 (by simp)
      | some cn =>
          rw [hgnn] at hrest2
          simp only [Bool.and_eq_true, beq_iff_eq] at hrest2
          obtain ⟨⟨hcnt, hcnp⟩, hch2⟩ := hrest2
          rw [if_pos rfl]
          simp only [List.nil_append]
          exact chainOk_relink_core h a n p c cn lr hgc (by simpa using hprevc) hcn hgnn
            hcnt (by simpa using hcnp) hch2 hna (fun hh => hpn hh.symm)
            (fun y hy => ⟨fun hh => halr (hh ▸ hy), fun hh => hnlr (hh ▸ hy),
              fun hh => hplr (hh ▸ hy)⟩)
  | cons y l1t ih =>
      intro p cur hch hpa hpn hplr hal1 hnl1 hpl1 halr hnlr hnd1 hdisj
      have hcur := chainOk_cur h p cur _ hch
      simp only [List.cons_append, List.head?_cons] at hcur
      subst hcur
      simp only [List.cons_append, chainOk, Bool.and_eq_true, beq_iff_eq] at hch
      obtain ⟨_, hrest⟩ := hch
      cases hcg : hget h y with
      | none => rw [hcg] at hrest; exact absurd hrest (by simp)
      | some cy =>
          rw [hcg] at hrest
          simp only [Bool.and_eq_true, beq_iff_eq] at hrest
          obtain ⟨⟨htagy, hprevy⟩, hchrest⟩ := hrest
          have hya : y ≠ a := fun hh => hal1 (by simp [hh])
          have hyn : y ≠ n := fun hh => hnl1 (by simp [hh])
          obtain ⟨cc, hgcc, hcct, hccp, hccn⟩ := chainOk_at h a (n :: lr) l1t y cy.next hchrest
          have hccc : cc = c := by
            rw [hgc] at hgcc
            injection hgcc with hcc2
            exact hcc2.symm
          rw [hccc] at hccp hccn
          have hycp2 : y = c.prev → l1t = [] := by
            intro hh
            cases hl1t : l1t with
            | nil => rfl
            | cons z t2 =>
                rw [hl1t] at hccp
                have hmem : (z :: t2).getLastD y ∈ z :: t2 := getLastD_mem _ _ (by simp)
                rw [← hccp, ← hh] at hmem
                rw [hl1t] at hnd1
                exact absurd hmem (List.nodup_cons.mp hnd1).1
          have hgoalif : ¬ ((y :: l1t) : List Nat) = [] := by simp
          rw [if_neg hgoalif]
          by_cases hl1e : l1t = []
          · subst hl1e
            have hcprev : c.prev = y := by simpa using hccp
            have hgy2 : hget (hremove (hmap (fun x => { x with prev := c.prev })
                n (hmap (fun x => { x with next := c.next }) c.prev h)) a) y =
                some { cy with next := c.next } := by
              rw [hget_hremove_ne _ _ _ hya, hget_hmap, if_neg hyn, hget_hmap,
                hcprev, if_pos rfl, hcg]
              rfl
            simp only [List.cons_append, List.nil_append, chainOk,
              Bool.and_eq_true, beq_iff_eq]
            rw [hgy2]
            simp only [Bool.and_eq_true, beq_iff_eq]
            refine ⟨trivial, ⟨htagy, by simpa using hprevy⟩, ?_⟩
            have hcynext : cy.next = some a := by
              simpa using chainOk_cur h y cy.next ([] ++ a :: n :: lr) hchrest
            rw [hcynext] at hchrest
            simp only [chainOk, Bool.and_eq_true, beq_iff_eq] at hchrest
            obtain ⟨_, hrest2⟩ := hchrest
            rw [hgc] at hrest2
            simp only [Bool.and_eq_true, beq_iff_eq] at hrest2
            obtain ⟨_, hchrest3⟩ := hrest2
            rw [hcn] at hchrest3
            simp only [chainOk, Bool.and_eq_true, beq_iff_eq] at hchrest3
            obtain ⟨_, hrest3⟩ := hchrest3
            cases hgnn : hget h n with
            | none => rw [hgnn] at hrest3; exact absurd hrest3 (by simp)
            | some cn =>
                rw [hgnn] at hrest3
                simp only [Bool.and_eq_true, beq_iff_eq] at hrest3
                obtain ⟨⟨hcnt, hcnp⟩, hch2⟩ := hrest3
                have hcore := chainOk_relink_core h a n y c cn lr hgc hcprev hcn hgnn
                  hcnt (by simpa using hcnp) hch2 hna (Ne.symm hyn)
                  (fun y2 hy2 => ⟨fun hh => halr (hh ▸ hy2), fun hh => hnlr (hh ▸ hy2),
                    fun hh => (hdisj y (by simp)) (hh ▸ hy2)⟩)
                rw [← hcn] at hcore
                simpa using hcore
          · have hycp : y ≠ c.prev := by
              intro hh
              exact hl1e (hycp2 hh)
            have hgy2 : hget (hremove (hmap (fun x => { x with prev := c.prev })
                n (hmap (fun x => { x with next := c.next }) c.prev h)) a) y =
                some cy := by
              rw [hget_hremove_ne _ _ _ hya, hget_hmap, if_neg hyn, hget_hmap,
                if_neg hycp, hcg]
            have hih := ih y cy.next hchrest hya hyn (hdisj y (by simp))
              (fun hh => hal1 (by simp [hh]))
              (fun hh => hnl1 (by simp [hh]))
              (List.nodup_cons.mp hnd1).1
              halr hnlr
              (List.nodup_cons.mp hnd1).2
              (fun w hw => hdisj w (by simp [hw]))
            rw [if_neg hl1e] at hih
            simp only [List.cons_append, chainOk, Bool.and_eq_true, beq_iff_eq]
            rw [hgy2]
            simp only [Bool.and_eq_true, beq_iff_eq]
            exact ⟨trivial, ⟨htagy, by simpa using hprevy⟩, hih⟩

theorem hget_isSome_of_mem (h : Heap) (a : Nat) (hm : a ∈ h.map Prod.fst) :
    ∃ c, hget h a = some c := by
  induction h with
  | nil => simp at hm
  | cons q t ih =>
      obtain ⟨x, cx⟩ := q
      by_cases hxa : x = a
      · exact ⟨cx, by simp [hget, hxa]⟩
      · simp only [List.map_cons, List.mem_cons] at hm
        rcases hm with hm | hm
        · exact absurd hm.symm hxa
        · obtain ⟨c, hc⟩ := ih hm
          exact ⟨c, by simp [hget, hxa, hc]⟩

theorem allocSum_alloc_congr (h1 h2 : Heap) (l : List Nat)
    (hs : ∀ a ∈ l, (hget h1 a).map mmchunk.alloc = (hget h2 a).map mmchunk.alloc) :
    allocSum h1 l = allocSum h2 l := by
  unfold allocSum
  congr 1
  apply List.map_congr_left
  intro a ha
  have hthis := hs a ha
  cases h1a : hget h1 a <;> cases h2a : hget h2 a <;> rw [h1a, h2a] at hthis <;> simp_all

theorem mmatic_allocate_pres (s : mmatic) (l : List Nat) (size : Nat) (zero shared : Bool)
    (g : Nat) (h : mmInv s l = true) :
    (mmatic_allocate size zero shared g s).1 = s.fresh ∧
    mmInv (mmatic_allocate size zero shared g s).2 (l ++ [s.fresh]) = true ∧
    hget (mmatic_allocate size zero shared g s).2.heap s.fresh =
      some { tag := true, shared := shared, alloc := size, prev := s.last, next := none,
             data := List.replicate size (if zero then 0 else g) } ∧
    (mmatic_allocate size zero shared g s).2.fresh = s.fresh + 1 ∧
    (mmatic_allocate size zero shared g s).2.oob = s.oob ∧
    (∀ b, b ≠ s.fresh →
      (hget (mmatic_allocate size zero shared g s).2.heap b).map
          (fun c => (c.alloc, c.shared, c.data, c.tag)) =
        (hget s.heap b).map (fun c => (c.alloc, c.shared, c.data, c.tag))) := by
  simp only [mmInv, Bool.and_eq_true, beq_iff_eq] at h
  obtain ⟨⟨⟨⟨⟨hkeys, hincr⟩, hlt⟩, hsent⟩, hlast⟩, htot⟩ := h
  cases hgs : hget s.heap s.first with
  | none => rw [hgs] at hsent; exact absurd hsent (by simp)
  | some c0 =>
      rw [hgs] at hsent
      simp only [Bool.and_eq_true] at hsent
      obtain ⟨hstag, hchain⟩ := hsent
      have hfr : ∀ x ∈ s.first :: l, x < s.fresh := (allLtB_iff _ _).mp hlt
      have hnm : hget s.heap s.fresh = none := by
        apply hget_none_of_not_mem
        rw [hkeys]
        intro hmem
        exact absurd (hfr s.fresh hmem) (by omega)
      have hpw : (s.first :: l).Pairwise (· < ·) := incrB_pairwise _ hincr
      have hndl : l.Nodup := (List.Pairwise.of_cons hpw).imp Nat.ne_of_lt
      have hfstl : ∀ x ∈ l, s.first < x := (List.pairwise_cons.mp hpw).1
      -- the new chunk
      have hbfr : ∀ b ∈ s.first :: l, b ≠ s.fresh := by
        intro b hb hh
        exact absurd (hfr b hb) (by omega)
      have hget2 : ∀ b, b ≠ s.fresh →
          hget (hmap (fun cc => { cc with next := some s.fresh }) s.last s.heap ++
              [(s.fresh,
                { tag := true, shared := shared, alloc := size, prev := s.last,
                  next := none, data := List.replicate size (if zero then 0 else g) })]) b =
            hget (hmap (fun cc => { cc with next := some s.fresh }) s.last s.heap) b := by
        intro b hb
        cases hgb : hget (hmap (fun cc => { cc with next := some s.fresh }) s.last s.heap) b with
        | none =>
            rw [hget_append_right _ _ _ hgb]
            have hfb : ¬ s.fresh = b := fun hh => hb hh.symm
            simp [hget, hfb]
        | some cb => exact hget_append_left _ _ _ _ hgb
      have hgetfresh : hget (hmap (fun cc => { cc with next := some s.fresh }) s.last s.heap ++
          [(s.fresh,
            { tag := true, shared := shared, alloc := size, prev := s.last,
              next := none, data := List.replicate size (if zero then 0 else g) })]) s.fresh =
          some
            { tag := true, shared := shared, alloc := size, prev := s.last,
              next := none, data := List.replicate size (if zero then 0 else g) } := by
        rw [hget_append_right]
        · simp [hget]
        · rw [hget_hmap]
          by_cases hfl : s.fresh = s.last
          · rw [if_pos hfl, hnm]
            rfl
          · rw [if_neg hfl, hnm]
      refine ⟨rfl, ?_, by simpa [mmatic_allocate] using hgetfresh, rfl, rfl, ?_⟩
      · simp only [mmatic_allocate, mmInv, Bool.and_eq_true, beq_iff_eq]
        refine ⟨⟨⟨⟨⟨?_, ?_⟩, ?_⟩, ?_⟩, ?_⟩, ?_⟩
        · rw [List.map_append, keys_hmap, hkeys]
          simp
        · apply pairwise_incrB
          rw [show s.first :: (l ++ [s.fresh]) = (s.first :: l) ++ [s.fresh] from rfl]
          rw [List.pairwise_append]
          refine ⟨hpw, by simp, ?_⟩
          intro x hx b hb
          simp only [List.mem_singleton] at hb
          subst hb
          exact hfr x hx
        · rw [allLtB_iff]
          intro x hx
          rw [show s.first :: (l ++ [s.fresh]) = (s.first :: l) ++ [s.fresh] from rfl] at hx
          rcases List.mem_append.mp hx with hx | hx
          · have := hfr x hx
            omega
          · simp only [List.mem_singleton] at hx
            omega
        · -- sentinel entry and chain
          cases hl : l with
          | nil =>
              have hlf : s.last = s.first := by rw [hlast, hl]; rfl
              have hgs2 : hget (hmap (fun cc => { cc with next := some s.fresh }) s.last
                  s.heap ++ [(s.fresh,
                    { tag := true, shared := shared, alloc := size, prev := s.last,
                      next := none, data := List.replicate size (if zero then 0 else g) })]) s.first =
                  some { c0 with next := some s.fresh } := by
                apply hget_append_left
                rw [hget_hmap, hlf, if_pos rfl, hgs]
                rfl
              rw [hgs2]
              simp only [Bool.and_eq_true]
              constructor
              · simpa using hstag
              · simp only [hl, List.nil_append, chainOk, Bool.and_eq_true, beq_iff_eq]
                rw [hgetfresh]
                simp [hlf, chainOk]
          | cons b lt =>
              have hlastmem : s.last ∈ l := by
                rw [hlast, hl]
                exact getLastD_mem _ _ (by simp)
              have hlf : s.first ≠ s.last := by
                intro hh
                have := hfstl s.last hlastmem
                omega
              have hgs2 : hget (hmap (fun cc => { cc with next := some s.fresh }) s.last
                  s.heap ++ [(s.fresh,
                    { tag := true, shared := shared, alloc := size, prev := s.last,
                      next := none, data := List.replicate size (if zero then 0 else g) })]) s.first =
                  some c0 := by
                apply hget_append_left
                rw [hget_hmap, if_neg hlf, hgs]
              rw [hgs2]
              simp only [Bool.and_eq_true]
              refine ⟨by simpa using hstag, ?_⟩
              have hsnoc := chainOk_snoc s.heap s.fresh
                { tag := true, shared := shared, alloc := size, prev := s.last,
                  next := none, data := List.replicate size (if zero then 0 else g) }
                hnm rfl rfl l s.first c0.next hchain hndl (by rw [hl]; simp)
                (by simpa using hlast)
              rw [← hlast, hl] at hsnoc
              exact hsnoc
        · rw [getLastD_concat]
        · rw [allocSum_append]
          have hsum1 : allocSum (hmap (fun cc => { cc with next := some s.fresh }) s.last
              s.heap ++ [(s.fresh,
                { tag := true, shared := shared, alloc := size,
                  prev := s.last, next := none,
                  data := List.replicate size (if zero then 0 else g) })]) l =
              allocSum s.heap l := by
            apply allocSum_alloc_congr
            intro a ha
            rw [hget2 a (hbfr a (by simp [ha]))]
            rw [hget_hmap]
            by_cases hal2 : a = s.last
            · rw [if_pos hal2]
              cases hga : hget s.heap a <;> simp
            · rw [if_neg hal2]
          have hsum2 : allocSum (hmap (fun cc => { cc with next := some s.fresh }) s.last
              s.heap ++ [(s.fresh,
                { tag := true, shared := shared, alloc := size,
                  prev := s.last, next := none,
                  data := List.replicate size (if zero then 0 else g) })]) [s.fresh] = size := by
            unfold allocSum
            rw [List.map_singleton, hgetfresh]
            rfl
          rw [hsum1, hsum2, htot]
      · intro b hb
        simp only [mmatic_allocate]
        rw [hget2 b hb, hget_hmap]
        by_cases hbl : b = s.last
        · rw [if_pos hbl]
          cases hgb : hget s.heap b <;> simp
        · rw [if_neg hbl]

theorem getLastD_eq_of_ne_nil (B : List Nat) (d e : Nat) (h : B ≠ []) :
    B.getLastD d = B.getLastD e := by
  cases B with
  | nil => exact absurd rfl h
  | cons b t => rw [getLastD_cons2, getLastD_cons2]

theorem getLastD_append_right (A B : List Nat) (d : Nat) (h : B ≠ []) :
    (A ++ B).getLastD d = B.getLastD d := by
  induction A generalizing d with
  | nil => rfl
  | cons y t ih =>
      rw [List.cons_append, getLastD_cons2, ih y]
      exact getLastD_eq_of_ne_nil B y d h

theorem pairwise_mid_facts (p : Nat) (l1 : List Nat) (a : Nat) (l2 : List Nat)
    (h : (p :: (l1 ++ a :: l2)).Pairwise (· < ·)) :
    p ≠ a ∧ a ∉ l1 ∧ p ∉ l1 ∧ a ∉ l2 ∧ p ∉ l2 ∧ l1.Nodup ∧ l2.Nodup ∧
    (∀ y ∈ l1, y ≠ a ∧ y ∉ l2) ∧ (∀ y ∈ l2, a < y) ∧ (∀ y ∈ l1, y < a) := by
  obtain ⟨hp, hrest⟩ := List.pairwise_cons.mp h
  rw [List.pairwise_append] at hrest
  obtain ⟨hpw1, hpw2, hcross⟩ := hrest
  obtain ⟨ha2, hpwl2⟩ := List.pairwise_cons.mp hpw2
  have hpa : p < a := hp a (by simp)
  refine ⟨by omega, ?_, ?_, ?_, ?_, hpw1.imp Nat.ne_of_lt, hpwl2.imp Nat.ne_of_lt,
    ?_, ha2, ?_⟩
  · intro hmem
    have := hcross a hmem a (by simp)
    omega
  · intro hmem
    have := hp p (by simp [hmem])
    omega
  · intro hmem
    have := ha2 a hmem
    omega
  · intro hmem
    have := hp p (by simp [hmem])
    omega
  · intro y hy
    constructor
    · have := hcross y hy a (by simp)
      omega
    · intro hmem
      have h1 := hcross y hy y (by simp [hmem])
      omega
  · intro y hy
    exact hcross y hy a (by simp)


theorem mmatic_freeptr_pres (s : mmatic) (l1 l2 : List Nat) (a : Nat)
    (h : mmInv s (l1 ++ a :: l2) = true) :
    ∃ s2, mmatic_freeptr a s = some s2 ∧ mmInv s2 (l1 ++ l2) = true ∧
      hget s2.heap a = none ∧ s2.fresh = s.fresh ∧ s2.oob = s.oob ∧
      s2.totalloc + (match hget s.heap a with | some c => c.alloc | none => 0) = s.totalloc ∧
      (∀ b, b ≠ a →
        (hget s2.heap b).map (fun c => (c.alloc, c.shared, c.data, c.tag)) =
          (hget s.heap b).map (fun c => (c.alloc, c.shared, c.data, c.tag))) := by
  simp only [mmInv, Bool.and_eq_true, beq_iff_eq] at h
  obtain ⟨⟨⟨⟨⟨hkeys, hincr⟩, hlt⟩, hsent⟩, hlast⟩, htot⟩ := h
  cases hgs : hget s.heap s.first with
  | none => rw [hgs] at hsent; exact absurd hsent (by simp)
  | some c0 =>
      rw [hgs] at hsent
      simp only [Bool.and_eq_true] at hsent
      obtain ⟨hstag, hchain⟩ := hsent
      have hpw : (s.first :: (l1 ++ a :: l2)).Pairwise (· < ·) := incrB_pairwise _ hincr
      obtain ⟨hfa, hal1, hfl1, hal2, hfl2, hnd1, hnd2, hl1f, hl2f, hl1a⟩ :=
        pairwise_mid_facts s.first l1 a l2 hpw
      have hkeysnd : (s.heap.map Prod.fst).Nodup := by
        rw [hkeys]
        exact hpw.imp Nat.ne_of_lt
      obtain ⟨c, hgc, hct, hcprev, hcnext⟩ :=
        chainOk_at s.heap a l2 l1 s.first c0.next hchain
      simp only [mmatic_freeptr]
      rw [hgc]
      dsimp only
      rw [if_pos hct, hcnext]
      have hcprevmem : l1 ≠ [] → c.prev ∈ l1 := by
        intro hne
        rw [hcprev]
        exact getLastD_mem _ _ hne
      have hanotin : a ∉ s.first :: l1 := by
        simp only [List.mem_cons]
        push_neg
        exact ⟨Ne.symm hfa, hal1⟩
      have halloc_le : c.alloc + allocSum s.heap l1 + allocSum s.heap l2 = s.totalloc := by
        rw [htot, allocSum_append]
        have : allocSum s.heap (a :: l2) = c.alloc + allocSum s.heap l2 := by
          unfold allocSum
          simp only [List.map_cons, List.sum_cons]
          rw [hgc]
        rw [this]
        omega
      cases hl2c : l2 with
      | nil =>
          subst hl2c
          have hcnone : c.next = none := by simpa using hcnext
          simp only [List.head?_nil]
          have hremnd : ((hmap (fun x => { x with next := none }) c.prev s.heap).map
              Prod.fst).Nodup := by
            rw [keys_hmap]
            exact hkeysnd
          refine ⟨_, rfl, ?_, ?_, rfl, rfl, ?_, ?_⟩
          · simp only [mmInv, Bool.and_eq_true, beq_iff_eq]
            refine ⟨⟨⟨⟨⟨?_, ?_⟩, ?_⟩, ?_⟩, ?_⟩, ?_⟩
            · rw [keys_hremove, keys_hmap, hkeys,
                show s.first :: (l1 ++ a :: []) = (s.first :: l1) ++ a :: [] from by simp,
                erase_middle a (s.first :: l1) [] hanotin]
              simp
            · apply pairwise_incrB
              refine List.Pairwise.sublist ?_ hpw
              apply List.Sublist.cons₂
              apply List.Sublist.append_left
              simp
            · rw [allLtB_iff]
              intro x hx
              refine (allLtB_iff _ _).mp hlt x ?_
              simp only [List.mem_cons, List.mem_append] at hx ⊢
              rcases hx with hx | hx | hx
              · exact Or.inl hx
              · exact Or.inr (Or.inl hx)
              · simp at hx
            · by_cases hl1e : l1 = []
              · subst hl1e
                have hcpf : c.prev = s.first := by simpa using hcprev
                have hgf : hget (hremove (hmap (fun x => { x with next := none })
                    c.prev s.heap) a) s.first = some { c0 with next := none } := by
                  rw [hget_hremove_ne _ _ _ hfa, hget_hmap, if_pos hcpf.symm, hgs]
                  rfl
                rw [hgf]
                simp only [Bool.and_eq_true]
                exact ⟨by simpa using hstag, by simp [chainOk]⟩
              · have hcpin : c.prev ∈ l1 := hcprevmem hl1e
                have hfcp : s.first ≠ c.prev := by
                  intro hh
                  rw [← hh] at hcpin
                  exact hfl1 hcpin
                have hgf : hget (hremove (hmap (fun x => { x with next := none })
                    c.prev s.heap) a) s.first = some c0 := by
                  rw [hget_hremove_ne _ _ _ hfa, hget_hmap, if_neg hfcp, hgs]
                rw [hgf]
                simp only [Bool.and_eq_true]
                refine ⟨by simpa using hstag, ?_⟩
                have hunlink := chainOk_unlink_tail s.heap a c hgc l1 s.first c0.next
                  hchain hfa hal1 hfl1 hnd1
                rw [if_neg hl1e] at hunlink
                rw [hcnone] at hunlink
                simpa using hunlink
            · simpa using hcprev
            · have hsumH : allocSum (hremove (hmap (fun x => { x with next := none })
                  c.prev s.heap) a) l1 = allocSum s.heap l1 := by
                apply allocSum_alloc_congr
                intro y hy
                rw [hget_hremove_ne _ _ _ (hl1f y hy).1, hget_hmap]
                by_cases hycp : y = c.prev
                · rw [if_pos hycp]
                  cases hget s.heap y <;> simp
                · rw [if_neg hycp]
              simp only [List.append_nil]
              rw [hsumH]
              simp only [List.append_nil] at halloc_le ⊢
              have hsum0 : allocSum s.heap ([] : List Nat) = 0 := rfl
              omega
          · exact hget_hremove_self _ _ hremnd
          · dsimp only
            omega
          · intro b hb
            rw [hget_hremove_ne _ _ _ hb, hget_hmap]
            by_cases hbcp : b = c.prev
            · rw [if_pos hbcp]
              cases hget s.heap b <;> simp
            · rw [if_neg hbcp]
      | cons n lr =>
          subst hl2c
          have hcn : c.next = some n := by simpa using hcnext
          simp only [List.head?_cons]
          have hna : n ≠ a := by
            have := hl2f n (by simp)
            omega
          have hfn : s.first ≠ n := by
            intro hh
            exact hfl2 (by simp [← hh])
          have hnl1 : n ∉ l1 := fun hmem => (hl1f n hmem).2 (by simp)
          have halr : a ∉ lr := fun hmem => hal2 (by simp [hmem])
          have hflr : s.first ∉ lr := fun hmem => hfl2 (by simp [hmem])
          have hnlr : n ∉ lr := (List.nodup_cons.mp hnd2).1
          have hremnd2 : ((hmap (fun x => { x with prev := c.prev }) n
              (hmap (fun x => { x with next := some n }) c.prev s.heap)).map
              Prod.fst).Nodup := by
            rw [keys_hmap, keys_hmap]
            exact hkeysnd
          refine ⟨_, rfl, ?_, ?_, rfl, rfl, ?_, ?_⟩
          · simp only [mmInv, Bool.and_eq_true, beq_iff_eq]
            refine ⟨⟨⟨⟨⟨?_, ?_⟩, ?_⟩, ?_⟩, ?_⟩, ?_⟩
            · rw [keys_hremove, keys_hmap, keys_hmap, hkeys,
                show s.first :: (l1 ++ a :: n :: lr) = (s.first :: l1) ++ a :: n :: lr from
                  by simp,
                erase_middle a (s.first :: l1) (n :: lr) hanotin]
              simp
            · apply pairwise_incrB
              refine List.Pairwise.sublist ?_ hpw
              apply List.Sublist.cons₂
              apply List.Sublist.append_left
              exact List.sublist_cons_self a (n :: lr)
            · rw [allLtB_iff]
              intro x hx
              refine (allLtB_iff _ _).mp hlt x ?_
              simp only [List.mem_cons, List.mem_append] at hx ⊢
              tauto
            · have hunlink := chainOk_unlink_mid s.heap a n c lr hgc hcn hna l1 s.first
                c0.next hchain hfa hfn hflr hal1 hnl1 hfl1 halr hnlr hnd1
                (fun y hy => (hl1f y hy).2 ∘ List.mem_cons_of_mem n)
              by_cases hl1e : l1 = []
              · subst hl1e
                have hcpf : c.prev = s.first := by simpa using hcprev
                have hgf : hget (hremove (hmap (fun x => { x with prev := c.prev }) n
                    (hmap (fun x => { x with next := some n }) c.prev s.heap)) a) s.first =
                    some { c0 with next := some n } := by
                  rw [hget_hremove_ne _ _ _ hfa, hget_hmap, if_neg hfn, hget_hmap,
                    if_pos hcpf.symm, hgs]
                  rfl
                rw [hgf]
                simp only [Bool.and_eq_true]
                refine ⟨by simpa using hstag, ?_⟩
                rw [if_pos rfl] at hunlink
                rw [hcn] at hunlink
                simpa using hunlink
              · have hcpin : c.prev ∈ l1 := hcprevmem hl1e
                have hfcp : s.first ≠ c.prev := by
                  intro hh
                  rw [← hh] at hcpin
                  exact hfl1 hcpin
                have hgf : hget (hremove (hmap (fun x => { x with prev := c.prev }) n
                    (hmap (fun x => { x with next := some n }) c.prev s.heap)) a) s.first =
                    some c0 := by
                  rw [hget_hremove_ne _ _ _ hfa, hget_hmap, if_neg hfn, hget_hmap,
                    if_neg hfcp, hgs]
                rw [hgf]
                simp only [Bool.and_eq_true]
                refine ⟨by simpa using hstag, ?_⟩
                rw [if_neg hl1e] at hunlink
                rw [hcn] at hunlink
                exact hunlink
            · rw [hlast, getLastD_append_right l1 (a :: n :: lr) s.first (by simp),
                getLastD_append_right l1 (n :: lr) s.first (by simp),
                getLastD_cons2]
              exact getLastD_eq_of_ne_nil _ _ _ (by simp)
            · have hsumH : allocSum (hremove (hmap (fun x => { x with prev := c.prev }) n
                  (hmap (fun x => { x with next := some n }) c.prev s.heap)) a)
                  (l1 ++ n :: lr) = allocSum s.heap (l1 ++ n :: lr) := by
                apply allocSum_alloc_congr
                intro y hy
                have hya : y ≠ a := by
                  intro hh
                  subst hh
                  rcases List.mem_append.mp hy with hy | hy
                  · exact hal1 hy
                  · exact hal2 hy
                rw [hget_hremove_ne _ _ _ hya, hget_hmap]
                by_cases hyn : y = n
                · rw [if_pos hyn, hget_hmap]
                  by_cases hycp : y = c.prev
                  · rw [if_pos hycp]
                    cases hget s.heap y <;> simp
                  · rw [if_neg hycp]
                    cases hget s.heap y <;> simp
                · rw [if_neg hyn, hget_hmap]
                  by_cases hycp : y = c.prev
                  · rw [if_pos hycp]
                    cases hget s.heap y <;> simp
                  · rw [if_neg hycp]
              rw [hsumH]
              rw [allocSum_append]
              omega
          · exact hget_hremove_self _ _ hremnd2
          · dsimp only
            omega
          · intro b hb
            rw [hget_hremove_ne _ _ _ hb, hget_hmap]
            by_cases hbn : b = n
            · rw [if_pos hbn, hget_hmap]
              by_cases hbcp : b = c.prev
              · rw [if_pos hbcp]
                cases hget s.heap b <;> simp
              · rw [if_neg hbcp]
                cases hget s.heap b <;> simp
            · rw [if_neg hbn, hget_hmap]
              by_cases hbcp : b = c.prev
              · rw [if_pos hbcp]
                cases hget s.heap b <;> simp
              · rw [if_neg hbcp]

theorem chainOk_fields_congr (h1 h2 : Heap) :
    ∀ (l : List Nat) (p : Nat) (cur : Option Nat),
      (∀ a ∈ l, (hget h1 a).map (fun c => (c.tag, c.prev, c.next)) =
        (hget h2 a).map (fun c => (c.tag, c.prev, c.next))) →
      chainOk h1 p cur l = chainOk h2 p cur l := by
  intro l
  induction l with
  | nil =>
      intro p cur _
      cases cur <;> rfl
  | cons b rest ih =>
      intro p cur hsame
      cases cur with
      | none => rfl
      | some a =>
          simp only [chainOk]
          by_cases hab : a = b
          · subst hab
            have hh := hsame a (by simp)
            cases h1a : hget h1 a with
            | none =>
                rw [h1a] at hh
                cases h2a : hget h2 a with
                | none => rfl
                | some c2 => rw [h2a] at hh; simp at hh
            | some c1 =>
                rw [h1a] at hh
                cases h2a : hget h2 a with
                | none => rw [h2a] at hh; simp at hh
                | some c2 =>
                    rw [h2a] at hh
                    simp only [Option.map_some', Option.some.injEq, Prod.mk.injEq] at hh
                    obtain ⟨ht, hp, hn⟩ := hh
                    simp only
                    rw [ht, hp, hn, ih a c2.next (fun y hy => hsame y (by simp [hy]))]
          · have hf : (a == b) = false := by simpa using hab
            simp [hf]

theorem mmInv_hmap_fields (s : mmatic) (l : List Nat) (f : mmchunk → mmchunk) (p : Nat)
    (b : Bool)
    (hf : ∀ x, (f x).tag = x.tag ∧ (f x).prev = x.prev ∧ (f x).next = x.next ∧
      (f x).alloc = x.alloc)
    (h : mmInv s l = true) :
    mmInv { s with heap := hmap f p s.heap, oob := b } l = true := by
  simp only [mmInv, Bool.and_eq_true, beq_iff_eq] at h ⊢
  obtain ⟨⟨⟨⟨⟨hkeys, hincr⟩, hlt⟩, hsent⟩, hlast⟩, htot⟩ := h
  have htriple : ∀ y, (hget (hmap f p s.heap) y).map (fun c => (c.tag, c.prev, c.next)) =
      (hget s.heap y).map (fun c => (c.tag, c.prev, c.next)) := by
    intro y
    rw [hget_hmap]
    by_cases hyp : y = p
    · rw [if_pos hyp]
      cases hget s.heap y with
      | none => rfl
      | some cc => simp [(hf cc).1, (hf cc).2.1, (hf cc).2.2.1]
    · rw [if_neg hyp]
  have halloceq : ∀ y, (hget (hmap f p s.heap) y).map mmchunk.alloc =
      (hget s.heap y).map mmchunk.alloc := by
    intro y
    rw [hget_hmap]
    by_cases hyp : y = p
    · rw [if_pos hyp]
      cases hget s.heap y with
      | none => rfl
      | some cc => simp [(hf cc).2.2.2]
    · rw [if_neg hyp]
  refine ⟨⟨⟨⟨⟨?_, hincr⟩, hlt⟩, ?_⟩, hlast⟩, ?_⟩
  · rw [keys_hmap]
    exact hkeys
  · cases hgs : hget s.heap s.first with
    | none => rw [hgs] at hsent; exact absurd hsent (by simp)
    | some c0 =>
        rw [hgs] at hsent
        have hh := htriple s.first
        rw [hgs] at hh
        cases hgm : hget (hmap f p s.heap) s.first with
        | none => rw [hgm] at hh; simp at hh
        | some cc =>
            rw [hgm] at hh
            simp only [Option.map_some', Option.some.injEq, Prod.mk.injEq] at hh
            obtain ⟨ht, hp, hn⟩ := hh
            simp only [Bool.and_eq_true] at hsent ⊢
            refine ⟨by rw [ht]; exact hsent.1, ?_⟩
            rw [hn, chainOk_fields_congr (hmap f p s.heap) s.heap l s.first c0.next
              (fun y _ => htriple y)]
            exact hsent.2
  · rw [allocSum_alloc_congr (hmap f p s.heap) s.heap l (fun y _ => halloceq y)]
    exact htot

theorem mmatic_realloc_pres (s : mmatic) (l1 l2 : List Nat) (a : Nat) (c : mmchunk)
    (size g : Nat) (h : mmInv s (l1 ++ a :: l2) = true) (hgc : hget s.heap a = some c) :
    ∃ s3, mmatic_realloc a size g s = some (s.fresh, s3) ∧
      mmInv s3 (l1 ++ l2 ++ [s.fresh]) = true ∧
      (hget s3.heap s.fresh).map (fun x => (x.alloc, x.shared, x.data, x.tag)) =
        some ((if size = 0 then c.alloc else size), c.shared,
          c.data ++ List.replicate ((if size = 0 then c.alloc else size) - c.alloc) g,
          true) ∧
      hget s3.heap a = none ∧ s3.fresh = s.fresh + 1 ∧
      s3.oob = (s.oob || decide ((if size = 0 then c.alloc else size) < c.alloc)) ∧
      s3.totalloc + c.alloc = s.totalloc + (if size = 0 then c.alloc else size) ∧
      (∀ b, b ≠ a → b ≠ s.fresh →
        (hget s3.heap b).map (fun x => (x.alloc, x.shared, x.data, x.tag)) =
          (hget s.heap b).map (fun x => (x.alloc, x.shared, x.data, x.tag))) := by
  have hinv := h
  simp only [mmInv, Bool.and_eq_true, beq_iff_eq] at hinv
  obtain ⟨⟨⟨⟨⟨hkeys, hincr⟩, hlt⟩, hsent⟩, hlast⟩, htot⟩ := hinv
  have halt : a < s.fresh := by
    refine (allLtB_iff _ _).mp hlt a ?_
    simp
  have hfra : s.fresh ≠ a := Nat.ne_of_gt halt
  cases hgs : hget s.heap s.first with
  | none => rw [hgs] at hsent; exact absurd hsent (by simp)
  | some c0 =>
      rw [hgs] at hsent
      simp only [Bool.and_eq_true] at hsent
      obtain ⟨hstag, hchain⟩ := hsent
      obtain ⟨c2, hgc2, hct2, hcprev2, hcnext2⟩ :=
        chainOk_at s.heap a l2 l1 s.first c0.next hchain
      rw [hgc] at hgc2
      injection hgc2 with hcc
      subst hcc
      obtain ⟨hA1, hA2, hA3, hA4, hA5, hA6⟩ := mmatic_allocate_pres s (l1 ++ a :: l2)
        (if size = 0 then c.alloc else size) false c.shared g h
      simp only [mmatic_realloc]
      rw [hgc]
      dsimp only
      rw [if_pos hct2, hA1]
      have hS2 : mmInv
          { (mmatic_allocate (if size = 0 then c.alloc else size) false c.shared g s).2 with
            heap := hmap
              (fun x =>
                { x with data := c.data ++
                    List.replicate ((if size = 0 then c.alloc else size) - c.alloc) g })
              s.fresh
              (mmatic_allocate (if size = 0 then c.alloc else size) false c.shared g s).2.heap,
            oob :=
              ((mmatic_allocate (if size = 0 then c.alloc else size) false c.shared g s).2.oob
                || decide ((if size = 0 then c.alloc else size) < c.alloc)) }
          (l1 ++ a :: (l2 ++ [s.fresh])) = true := by
        rw [show l1 ++ a :: (l2 ++ [s.fresh]) = (l1 ++ a :: l2) ++ [s.fresh] from by simp]
        exact mmInv_hmap_fields _ _ _ _ _ (fun x => ⟨rfl, rfl, rfl, rfl⟩) hA2
      obtain ⟨s3, hF1, hF2, hF3, hF4, hF5, hF6, hF7⟩ :=
        mmatic_freeptr_pres _ l1 (l2 ++ [s.fresh]) a hS2
      refine ⟨s3, ?_, ?_, ?_, hF3, ?_, ?_, ?_, ?_⟩
      · rw [hF1]
        rfl
      · rw [show l1 ++ l2 ++ [s.fresh] = l1 ++ (l2 ++ [s.fresh]) from by simp]
        exact hF2
      · have hq := hF7 s.fresh hfra
        rw [hq]
        dsimp only
        rw [hget_hmap, if_pos rfl, hA3]
        simp
      · rw [hF4, hA4]
      · rw [hF5]
        dsimp only
        rw [hA5]
      · have hgs2a : (hget
            (hmap
              (fun x =>
                { x with data := c.data ++
                    List.replicate ((if size = 0 then c.alloc else size) - c.alloc) g })
              s.fresh
              (mmatic_allocate (if size = 0 then c.alloc else size) false c.shared g
                s).2.heap) a).map (fun x => (x.alloc, x.shared, x.data, x.tag)) =
            some (c.alloc, c.shared, c.data, c.tag) := by
          rw [hget_hmap, if_neg (fun hh => hfra hh.symm), hA6 a (fun hh => hfra hh.symm),
            hgc]
          rfl
        obtain ⟨ca, hca, hcaq⟩ := Option.map_eq_some'.mp hgs2a
        have hcaalloc : ca.alloc = c.alloc := by
          have := congrArg Prod.fst hcaq
          simpa using this
        rw [hca] at hF6
        dsimp only at hF6
        have htot2 : (mmatic_allocate (if size = 0 then c.alloc else size) false c.shared g
            s).2.totalloc = s.totalloc + (if size = 0 then c.alloc else size) := rfl
        omega
      · intro b hba hbf
        rw [hF7 b hba]
        dsimp only
        rw [hget_hmap, if_neg hbf, hA6 b hbf]

/-- C1: the manager invariant - the chunk list traversed from the sentinel
is exactly the live chunks in allocation order, mgr->last is the last chunk
of that traversal and the running total is the sum of the live payload
sizes - holds for a fresh manager and is preserved by allocate, by freeOne
(wherever the freed chunk sits: head, interior or tail, via the l1/l2
split) and by reallocate. -/
theorem claim_C1_manager_chain_invariant :
    (mmInv mmatic_create [] = true) ∧
    (∀ (s : mmatic) (l : List Nat) (size : Nat) (zero shared : Bool) (g : Nat),
      mmInv s l = true →
      mmInv (mmatic_allocate size zero shared g s).2 (l ++ [s.fresh]) = true) ∧
    (∀ (s : mmatic) (l1 l2 : List Nat) (a : Nat), mmInv s (l1 ++ a :: l2) = true →
      ∃ s2, mmatic_freeptr a s = some s2 ∧ mmInv s2 (l1 ++ l2) = true) ∧
    (∀ (s : mmatic) (l1 l2 : List Nat) (a : Nat) (size g : Nat),
      mmInv s (l1 ++ a :: l2) = true →
      ∃ s3, mmatic_realloc a size g s = some (s.fresh, s3) ∧
        mmInv s3 (l1 ++ l2 ++ [s.fresh]) = true) := by
  refine ⟨by decide, ?_, ?_, ?_⟩
  · intro s l size zero shared g h
    exact (mmatic_allocate_pres s l size zero shared g h).2.1
  · intro s l1 l2 a h
    obtain ⟨s2, h1, h2, _⟩ := mmatic_freeptr_pres s l1 l2 a h
    exact ⟨s2, h1, h2⟩
  · intro s l1 l2 a size g h
    have hmem : a ∈ s.heap.map Prod.fst := by
      have hinv := h
      simp only [mmInv, Bool.and_eq_true, beq_iff_eq] at hinv
      rw [hinv.1.1.1.1.1]
      simp
    obtain ⟨c, hgc⟩ := hget_isSome_of_mem s.heap a hmem
    obtain ⟨s3, h1, h2, _⟩ := mmatic_realloc_pres s l1 l2 a c size g h hgc
    exact ⟨s3, h1, h2⟩

/-- Witness for C1 on a concrete manager holding two chunks: the invariant
holds after creation and both allocations, freeing the head chunk keeps it,
and reallocating the tail chunk keeps it. -/
theorem claim_C1_witness :
    mmInv mmatic_create [] = true ∧
    mmInv (mmatic_allocate 2 false false 7 mmatic_create).2 ([] ++ [mmatic_create.fresh]) =
      true ∧
    (mmatic_freeptr 1
        (mmatic_allocate 3 false false 7 (mmatic_allocate 2 false false 7
          mmatic_create).2).2).map (fun s2 => mmInv s2 ([] ++ [2])) = some true ∧
    (mmatic_realloc 2 5 9
        (mmatic_allocate 3 false false 7 (mmatic_allocate 2 false false 7
          mmatic_create).2).2).map (fun p => mmInv p.2 ([1] ++ [] ++ [3])) = some true := by
  refine ⟨claim_C1_manager_chain_invariant.1, ?_, ?_, ?_⟩
  · exact claim_C1_manager_chain_invariant.2.1 mmatic_create [] 2 false false 7
      claim_C1_manager_chain_invariant.1
  · obtain ⟨s2, h1, h2⟩ := claim_C1_manager_chain_invariant.2.2.1
      (mmatic_allocate 3 false false 7 (mmatic_allocate 2 false false 7
        mmatic_create).2).2 [] [2] 1 (by decide)
    rw [h1]
    simpa using h2
  · obtain ⟨s3, h1, h2⟩ := claim_C1_manager_chain_invariant.2.2.2
      (mmatic_allocate 3 false false 7 (mmatic_allocate 2 false false 7
        mmatic_create).2).2 [1] [] 2 5 9 (by decide)
    rw [h1]
    simpa using h2

/-- C4: reallocating a live chunk always allocates a fresh chunk of the
same backing-store kind (the shared flag is copied), releases the old
chunk, and returns the fresh payload pointer; size 0 keeps the current
payload size; and when the new size is at least the old one the first
old-size bytes of the new payload equal the old contents. -/
theorem claim_C4_realloc_semantics (s : mmatic) (l1 l2 : List Nat) (a : Nat) (c : mmchunk)
    (size g : Nat) (h : mmInv s (l1 ++ a :: l2) = true) (hgc : hget s.heap a = some c)
    (hlen : c.data.length = c.alloc) :
    ∃ s3, mmatic_realloc a size g s = some (s.fresh, s3) ∧
      (hget s3.heap s.fresh).map (fun x => (x.shared, x.alloc)) =
        some (c.shared, if size = 0 then c.alloc else size) ∧
      hget s3.heap a = none ∧
      (c.alloc ≤ (if size = 0 then c.alloc else size) →
        (hget s3.heap s.fresh).map (fun x => x.data.take c.alloc) = some c.data) := by
  obtain ⟨s3, h1, h2, h3, h4, h5, h6, h7, h8⟩ :=
    mmatic_realloc_pres s l1 l2 a c size g h hgc
  obtain ⟨x, hx, hxq⟩ := Option.map_eq_some'.mp h3
  simp only [Prod.mk.injEq] at hxq
  obtain ⟨hxa, hxs, hxd, hxt⟩ := hxq
  refine ⟨s3, h1, ?_, h4, ?_⟩
  · rw [hx]
    simp [hxs, hxa]
  · intro hge
    rw [hx]
    simp only [Option.map_some', Option.some.injEq]
    rw [hxd, ← hlen, take_append_len]

/-- Witness for C4: grow a live 2-byte chunk (bytes 7,7) to 5 bytes in a
concrete manager. -/
theorem claim_C4_witness :
    ∃ s3, mmatic_realloc 1 5 9 (mmatic_allocate 2 false false 7 mmatic_create).2 =
        some ((mmatic_allocate 2 false false 7 mmatic_create).2.fresh, s3) ∧
      (hget s3.heap (mmatic_allocate 2 false false 7 mmatic_create).2.fresh).map
          (fun x => (x.shared, x.alloc)) = some (false, if 5 = 0 then 2 else 5) ∧
      hget s3.heap 1 = none ∧
      (2 ≤ (if 5 = 0 then 2 else 5) →
        (hget s3.heap (mmatic_allocate 2 false false 7 mmatic_create).2.fresh).map
          (fun x => x.data.take 2) = some [7, 7]) :=
  claim_C4_realloc_semantics (mmatic_allocate 2 false false 7 mmatic_create).2 [] [] 1
    { tag := true, shared := false, alloc := 2, prev := 0, next := none, data := [7, 7] }
    5 9 (by decide) (by decide) (by decide)

/-- C9: the claim fails in the code - on a shrinking reallocation (0 < new
size < old size) the copy length is the OLD payload size
(memcpy(newmem, mem, chunk->alloc) at src/mmatic.c line 127), so the copy
runs past the end of the new payload: the model's out-of-bounds flag is
set, and the fresh chunk ends up holding more recorded bytes than its
payload size. -/
theorem claim_C9_realloc_shrink_copy_oob (s : mmatic) (l1 l2 : List Nat) (a : Nat)
    (c : mmchunk) (size g : Nat) (h : mmInv s (l1 ++ a :: l2) = true)
    (hgc : hget s.heap a = some c) (hlen : c.data.length = c.alloc)
    (hpos : 0 < size) (hshrink : size < c.alloc) :
    ∃ s3, mmatic_realloc a size g s = some (s.fresh, s3) ∧ s3.oob = true ∧
      (hget s3.heap s.fresh).map (fun x => decide (x.alloc < x.data.length)) =
        some true := by
  obtain ⟨s3, h1, h2, h3, h4, h5, h6, h7, h8⟩ :=
    mmatic_realloc_pres s l1 l2 a c size g h hgc
  have hsz : (if size = 0 then c.alloc else size) = size := if_neg (by omega)
  rw [hsz] at h3 h6
  refine ⟨s3, h1, ?_, ?_⟩
  · rw [h6]
    simp [hshrink]
  · obtain ⟨x, hx, hxq⟩ := Option.map_eq_some'.mp h3
    simp only [Prod.mk.injEq] at hxq
    obtain ⟨hxa, hxs, hxd, hxt⟩ := hxq
    rw [hx]
    simp only [Option.map_some', Option.some.injEq]
    rw [hxa, hxd]
    simp only [List.length_append, List.length_replicate]
    rw [hlen]
    simp only [decide_eq_true_eq]
    omega

/-- Witness for C9: shrinking a live 2-byte chunk to 1 byte in a concrete
manager sets the out-of-bounds flag. -/
theorem claim_C9_witness :
    ∃ s3, mmatic_realloc 1 1 7 (mmatic_allocate 2 false false 7 mmatic_create).2 =
        some ((mmatic_allocate 2 false false 7 mmatic_create).2.fresh, s3) ∧
      s3.oob = true ∧
      (hget s3.heap (mmatic_allocate 2 false false 7 mmatic_create).2.fresh).map
        (fun x => decide (x.alloc < x.data.length)) = some true :=
  claim_C9_realloc_shrink_copy_oob (mmatic_allocate 2 false false 7 mmatic_create).2 [] [] 1
    { tag := true, shared := false, alloc := 2, prev := 0, next := none, data := [7, 7] }
    1 7 (by decide) (by decide) (by decide) (by decide) (by decide)

end Libpjf
